import Mathlib

/-!
# Verification of the `binmap` declarative binary codec

A shallow embedding of `src/binmap/__init__.py` (together with the primitive
type aliases of `src/binmap/types.py`).  `binmap` compiles a dataclass field
list into a `struct` format string once per class (`__init_subclass__`),
serialises instances with `__bytes__`, and deserialises with `frombytes`;
per-field read/write rules are implemented by descriptors (`BinField`,
`PaddingField`, `EnumField`, `ConstField`, `CalculatedField`).

The embedding covers the fixed-width primitive universe of the library:
signed and unsigned integers of widths 1, 2, 4 and 8 bytes (format
characters `b B h H i I l L q Q`, generalised here to any byte width),
booleans (`?`), fixed-length byte strings (`Ns`) and padding (`x`).  IEEE
floats (`e f d`), the single-character `c` format and Pascal strings
(`Np`) are outside the embedding, and integers are serialised with the
default big-endian byte order (`byteorder=">"`); no claim below depends
on the excluded formats or on little-endian layouts.  Machine integers
are modelled as `Int` with the explicit range checks that `struct.pack`
performs; byte strings are `List Nat` of bytes.

Python's in-place mutation of `self.__dict__` is modelled by explicit state
passing: every mutating operation takes a store and returns the new store
together with an optional exception message (`Store × Option String`), the
store component being the exact state at the moment the exception escapes.
-/

namespace Binmap

/-- A runtime value held in an instance's `__dict__`: Python `int`, `bool`,
`bytes` (a byte string, one `Nat` per byte) or `str` (a text string, as
written for enum labels — distinct from `bytes`, exactly as in Python). -/
inductive Value where
  | int (i : Int)
  | bool (b : Bool)
  | str (s : List Nat)
  | pystr (s : String)
deriving DecidableEq, Repr

/-- The fixed-width primitive universe (the type hints of
`binmap/types.py` that map to fixed-size `struct` format characters).
`num signed w` covers the integer formats (`b B h H i I l L q Q`:
width 1, 2, 4, 4, 8 bytes, signed or unsigned), `boolean` is `?`,
`string len` is the `"Ns"` format built for `b_types.string` fields from
their `length` metadata, and `pad count` is `count * "x"` built for
`b_types.pad` fields from their default. -/
inductive Prim where
  | num (signed : Bool) (width : Nat)
  | boolean
  | string (len : Nat)
  | pad (count : Nat)
deriving DecidableEq, Repr

/-- An entry of the modelled `self.__dict__`: ordinary fields hold a
`Value`; a calculated field holds its resolver function (stored by
`__post_init__` via `self.__dict__.update({f.name: f.metadata["function"]})`).
The resolver receives the value view of the store, mirroring the bound
`self` the Python function reads its fields from. -/
inductive Entry where
  | val (v : Value)
  | fn (f : List (String × Value) → Value)

/-- The modelled `self.__dict__`: an insertion-ordered association list. -/
abbrev Store := List (String × Entry)

/-- The value view of a store: the non-callable entries, as Python code
(such as the calculated-field resolvers in the test-suite) observes them. -/
def valueView (store : Store) : List (String × Value) :=
  store.filterMap fun p =>
    match p.2 with
    | Entry.val v => some (p.1, v)
    | Entry.fn _ => none

/-- The behaviour class of a field, decided by `__init_subclass__` from the
field's `dataclasses.field` metadata: `plain` fields (including strings,
booleans and `enumfield`-less integers) get `BinField`, `constant` metadata
gets `ConstField`, `enum` metadata gets `EnumField`, `autolength` metadata
gets `ConstField` as well, and `function` metadata gets `CalculatedField`.
`enum` carries the mapping as raw-value/label pairs; `calc` carries the
resolver and the `last` metadata flag. -/
inductive FieldKind where
  | plain
  | const (default : Value)
  | enum (mapping : List (Int × String)) (default : Value)
  | auto (offset : Int)
  | calcF (f : List (String × Value) → Value) (last : Bool)

/-- One declared dataclass field: its name, its primitive type hint
and its behaviour kind (from the metadata).  `default` is the
`dataclasses.field` default used by the generated `__init__`. -/
structure Field where
  name : String
  prim : Prim
  kind : FieldKind
  default : Value := Value.int 0

/-- Whether a field is a padding field (`b_types.pad` type hint /
`padding` metadata). -/
def Field.isPadding (f : Field) : Bool :=
  match f.prim with
  | Prim.pad _ => true
  | _ => false

/-- Whether a field carries `last=True` metadata (only `calculatedfield`
can set it). -/
def Field.isLast (f : Field) : Bool :=
  match f.kind with
  | FieldKind.calcF _ last => last
  | _ => false

/-! ## The compiled format string

`__init_subclass__` walks `dataclasses.fields(cls)` (ancestor-declared
fields first, mirroring single inheritance as list concatenation) and
appends one format item per field; a `last=True` field's item is held back
and appended at the very end, and a second `last=True` field raises
`ValueError("Can't have more than one last")`.  We model the format string
as the list of its items. -/

/-- One item of the compiled format string. -/
inductive FmtItem where
  | num (signed : Bool) (width : Nat)
  | boolean
  | string (len : Nat)
  | pad (count : Nat)
deriving DecidableEq, Repr

/-- The format item of a primitive type hint. -/
def Prim.fmt : Prim → FmtItem
  | Prim.num s w => FmtItem.num s w
  | Prim.boolean => FmtItem.boolean
  | Prim.string n => FmtItem.string n
  | Prim.pad n => FmtItem.pad n

/-- The byte width `struct.calcsize` assigns to one format item. -/
def FmtItem.size : FmtItem → Nat
  | FmtItem.num _ w => w
  | FmtItem.boolean => 1
  | FmtItem.string n => n
  | FmtItem.pad n => n

/-- `struct.calcsize` of a format item list. -/
def calcsize (items : List FmtItem) : Nat :=
  (items.map FmtItem.size).sum

/-- The compiled schema: the inline format items, the optional trailing
(`last=True`) item, and the field list itself. -/
structure Schema where
  fields : List Field
  inline : List FmtItem
  trailing : Option FmtItem

/-- The full format string of a schema: inline items then the trailing
item (`cls.__formatstring += lastfield`). -/
def Schema.fmtItems (s : Schema) : List FmtItem :=
  s.inline ++ s.trailing.toList

/-- The loop body of `__init_subclass__`: fold over the declared fields,
accumulating the inline format string and the held-back `last` item;
a second `last` field raises. -/
def compileAux : List Field → List FmtItem → Option FmtItem →
    Except String (List FmtItem × Option FmtItem)
  | [], inline, lastf => Except.ok (inline, lastf)
  | f :: fs, inline, lastf =>
    if f.isLast then
      match lastf with
      | some _ => Except.error "Can't have more than one last"
      | none => compileAux fs inline (some f.prim.fmt)
    else
      compileAux fs (inline ++ [f.prim.fmt]) lastf

/-- `__init_subclass__` as schema compilation: the input field list is the
concatenation of the ancestors' declared fields with the class's own
(exactly what `dataclasses.fields(cls)` yields for a single-inheritance
chain). -/
def compile (fields : List Field) : Except String Schema :=
  match compileAux fields [] none with
  | Except.error e => Except.error e
  | Except.ok (inline, lastf) => Except.ok ⟨fields, inline, lastf⟩

/-- The number of `last=True` fields in a declaration list. -/
def countLast (fields : List Field) : Nat :=
  (fields.filter Field.isLast).length

/-! ## Big-endian bytes for machine integers -/

/-- Big-endian byte encoding of `n` into exactly `w` bytes
(most significant first). -/
def toBytesBE : Nat → Nat → List Nat
  | 0, _ => []
  | w + 1, n => toBytesBE w (n / 256) ++ [n % 256]

/-- Big-endian byte decoding. -/
def fromBytesBE (bs : List Nat) : Nat :=
  bs.foldl (fun acc b => acc * 256 + b) 0

/-! ## `struct.pack` / `struct.unpack` over format item lists -/

/-- Python truthiness of a modelled value (used by the `?` format). -/
def truthy : Value → Bool
  | Value.int i => i ≠ 0
  | Value.bool b => b
  | Value.str s => s ≠ []
  | Value.pystr s => s ≠ ""

/-- `struct.pack` of one value-consuming format item.  Integer formats
enforce the range of the declared width (signed widths use two's
complement); `"Ns"` zero-pads or truncates its `bytes` argument to `N` and
rejects non-`bytes` arguments; `?` packs any value's truthiness. -/
def packValue1 : FmtItem → Value → Option (List Nat)
  | FmtItem.num true w, Value.int i =>
    if -(((256:Int) ^ w) / 2) ≤ i ∧ i < ((256:Int) ^ w) / 2 then
      some (toBytesBE w (i.emod ((256:Int) ^ w)).toNat)
    else none
  | FmtItem.num false w, Value.int i =>
    if 0 ≤ i ∧ i < (256:Int) ^ w then some (toBytesBE w i.toNat) else none
  | FmtItem.num _ _, _ => none
  | FmtItem.boolean, v => some [if truthy v then 1 else 0]
  | FmtItem.string n, Value.str s => some (s.take n ++ List.replicate (n - s.length) 0)
  | FmtItem.string _, _ => none
  | FmtItem.pad _, _ => none

/-- `struct.pack` over a whole format item list: `x` items emit zero bytes
and consume no argument; every other item consumes one argument; an
argument-count mismatch is a `struct.error` (`none`). -/
def structPack : List FmtItem → List Value → Option (List Nat)
  | [], [] => some []
  | [], _ :: _ => none
  | FmtItem.pad n :: rest, vals =>
    (structPack rest vals).map (List.replicate n 0 ++ ·)
  | _ :: _, [] => none
  | item :: rest, v :: vals => do
    let bs ← packValue1 item v
    let tl ← structPack rest vals
    some (bs ++ tl)

/-- Interpretation of `w` raw big-endian bytes as an integer of the
format: signed formats use two's complement. -/
def decodeNum : Bool → Nat → Nat → Int
  | true, w, n =>
    if (n : Int) < ((256:Int) ^ w) / 2 then (n : Int) else (n : Int) - (256:Int) ^ w
  | false, _, n => (n : Int)

/-- `struct.unpack` over a format item list: requires the buffer to be
consumed exactly (a length mismatch is a `struct.error`); `x` items skip
their bytes and yield no value; signed integers decode by two's
complement; `?` yields whether the byte is non-zero. -/
def structUnpack : List FmtItem → List Nat → Option (List Value)
  | [], [] => some []
  | [], _ :: _ => none
  | FmtItem.pad n :: rest, buf =>
    if n ≤ buf.length then structUnpack rest (buf.drop n) else none
  | FmtItem.num signed w :: rest, buf =>
    if w ≤ buf.length then
      (structUnpack rest (buf.drop w)).map
        (Value.int (decodeNum signed w (fromBytesBE (buf.take w))) :: ·)
    else none
  | FmtItem.boolean :: rest, b :: buf =>
    (structUnpack rest buf).map (Value.bool (b ≠ 0) :: ·)
  | FmtItem.boolean :: _, [] => none
  | FmtItem.string n :: rest, buf =>
    if n ≤ buf.length then
      (structUnpack rest (buf.drop n)).map (Value.str (buf.take n) :: ·)
    else none

/-! ## The instance store and the descriptors -/

/-- `obj.__dict__[name]` lookup. -/
def storeGet : Store → String → Option Entry
  | [], _ => none
  | (k, e) :: rest, n => if k = n then some e else storeGet rest n

/-- `obj.__dict__[name] = e`: Python dict assignment keeps the insertion
position of an existing key and appends a new key at the end. -/
def storeSet : Store → String → Entry → Store
  | [], n, e => [(n, e)]
  | (k, e0) :: rest, n, e => if k = n then (k, e) :: rest else (k, e0) :: storeSet rest n e

/-- The bounds check of `BinField.__set__`: `struct.pack` with the field's
single format character (no repeat/length count — so string fields accept
any `bytes`, and `?` accepts anything). -/
def checkSet : Prim → Value → Bool
  | Prim.num true w, Value.int i =>
    decide (-(((256:Int) ^ w) / 2) ≤ i) && decide (i < ((256:Int) ^ w) / 2)
  | Prim.num false w, Value.int i => decide (0 ≤ i) && decide (i < (256:Int) ^ w)
  | Prim.num _ _, _ => false
  | Prim.boolean, _ => true
  | Prim.string _, Value.str _ => true
  | Prim.string _, _ => false
  | Prim.pad _, _ => true

/-- Raw value membership in an enum mapping (`WindEnum(value)`). -/
def enumHasRaw (mapping : List (Int × String)) (i : Int) : Bool :=
  mapping.any fun p => p.1 = i

/-- Label membership in an enum mapping (`WindEnum[value]`). -/
def enumHasLabel (mapping : List (Int × String)) (s : String) : Bool :=
  mapping.any fun p => p.2 = s

/-- `setattr(obj, f.name, v)` through the descriptor `__init_subclass__`
installed for the field: `PaddingField` ignores the write; `ConstField`
(used for both `constant` and `autolength` metadata) rejects a second
write; `EnumField` validates membership in the mapping and stores the
value *as given*; `CalculatedField` rejects a write once the name exists
in the dict and otherwise ignores it; `BinField` bounds-checks and stores.
The result is the new store paired with the escaped exception, if any;
on an exception the store is exactly as the exception left it. -/
def setattrF (f : Field) (store : Store) (v : Value) : Store × Option String :=
  if f.isPadding then (store, none)
  else match f.kind with
    | FieldKind.plain =>
      if checkSet f.prim v then (storeSet store f.name (Entry.val v), none)
      else (store, some "struct.error: argument out of range")
    | FieldKind.const _ | FieldKind.auto _ =>
      if (storeGet store f.name).isSome then (store, some (f.name ++ " is a constant"))
      else (storeSet store f.name (Entry.val v), none)
    | FieldKind.enum mapping _ =>
      match v with
      | Value.pystr s =>
        if enumHasLabel mapping s then (storeSet store f.name (Entry.val v), none)
        else (store, some "KeyError")
      | Value.int i =>
        if enumHasRaw mapping i then (storeSet store f.name (Entry.val v), none)
        else (store, some "is not a valid enum")
      | Value.bool b =>
        if enumHasRaw mapping (if b then 1 else 0) then
          (storeSet store f.name (Entry.val v), none)
        else (store, some "is not a valid enum")
      | Value.str _ => (store, some "is not a valid enum")
    | FieldKind.calcF _ _ =>
      if (storeGet store f.name).isSome then (store, some "Can't set a calculated field")
      else (store, none)

/-- `getattr(obj, f.name)` through the installed descriptor:
`PaddingField.__get__` raises; `CalculatedField.__get__` applies the
resolver to the instance; every other descriptor returns
`obj.__dict__[f.name]`. -/
def getattrF (f : Field) (store : Store) : Except String Value :=
  if f.isPadding then Except.error ("Padding (" ++ f.name ++ ") is not readable")
  else match f.kind with
    | FieldKind.calcF g _ => Except.ok (g (valueView store))
    | _ =>
      match storeGet store f.name with
      | some (Entry.val v) => Except.ok v
      | _ => Except.error "AttributeError"

/-! ## `__bytes__` (the encoder) -/

/-- `self.__datafieldsmap[k]` lookup: the declared field named `k`. -/
def findField : List Field → String → Option Field
  | [], _ => none
  | f :: fs, k => if f.name = k then some f else findField fs k

/-- The value-collection loop of `__bytes__`: iterate `self.__dict__` in
insertion order, resolve callables against the instance, divert the value
of the `last=True` field (a later assignment to `lastvalue` wins, as in
the Python loop), and collect the rest in order.  A store key missing from
the field map is the `KeyError` the Python code would raise (`none`). -/
def bytesValuesAux (fields : List Field) (view : List (String × Value)) :
    Store → Option (List Value × Option Value)
  | [] => some ([], none)
  | (k, e) :: rest => do
    let f ← findField fields k
    let v := match e with
      | Entry.val v => v
      | Entry.fn g => g view
    let (vs, lastv) ← bytesValuesAux fields view rest
    if f.isLast then some (vs, some (lastv.getD v))
    else some (v :: vs, lastv)

/-- The argument list `__bytes__` hands to `struct.pack`: the inline
values in `__dict__` order, then `lastvalue` appended if it was set
(`if lastvalue is not None`). -/
def bytesValues (s : Schema) (store : Store) : Option (List Value) :=
  (bytesValuesAux s.fields (valueView store) store).map fun p => p.1 ++ p.2.toList

/-- `bytes(obj)`: collect the values and `struct.pack` them with the
compiled format string.  `none` is an escaped exception. -/
def encodeB (s : Schema) (store : Store) : Option (List Nat) :=
  (bytesValues s store).bind (structPack s.fmtItems)

/-! ## `frombytes` (the decoder) -/

/-- `cls.__datafields`: the non-padding fields in declaration order (the
names `__post_init__` appends, with their metadata from
`__datafieldsmap`). -/
def datafields (s : Schema) : List Field :=
  s.fields.filter fun f => !f.isPadding

/-- The `for arg, name in zip(args, self.__datafields)` loop of
`frombytes`: `constant` fields compare the unpacked value against the
declared default, `autolength` fields against `getattr(self, name)`,
`function` fields against the resolver applied to the current (partially
updated) instance; every other field is assigned with `setattr`.  The
returned store is the state at loop exit — on an exception, the state the
exception left behind. -/
def frombytesLoop : List Field → List Value → Store → Store × Option String
  | [], _, store => (store, none)
  | _ :: _, [], store => (store, none)
  | f :: fs, arg :: args, store =>
    match f.kind with
    | FieldKind.const d =>
      if arg = d then frombytesLoop fs args store
      else (store, some "Constant doesn't match binary data")
    | FieldKind.auto _ =>
      match storeGet store f.name with
      | some (Entry.val v) =>
        if arg = v then frombytesLoop fs args store
        else (store, some "Length doesn't match")
      | _ => (store, some "AttributeError")
    | FieldKind.calcF g _ =>
      if arg = g (valueView store) then frombytesLoop fs args store
      else (store, some "Wrong calculated value")
    | _ =>
      match setattrF f store arg with
      | (store', none) => frombytesLoop fs args store'
      | (store', some e) => (store', some e)

/-- `obj.frombytes(value)`: `struct.unpack` the whole buffer with the
compiled format string (an exception here escapes before any field is
touched), then run the assignment loop. -/
def frombytes (s : Schema) (store : Store) (buf : List Nat) : Store × Option String :=
  match structUnpack s.fmtItems buf with
  | none => (store, some "struct.error: unpack")
  | some args => frombytesLoop (datafields s) args store

/-! ## Construction (`__init__` + `__post_init__`) -/

/-- Whether the generated `__init__` has a parameter for the field:
`constant` and `autolength` metadata set `init=False`. -/
def Field.isInit (f : Field) : Bool :=
  match f.kind with
  | FieldKind.const _ => false
  | FieldKind.auto _ => false
  | _ => true

/-- The assignment sequence of the generated `__init__`: each
`init=True` field is assigned its keyword argument or its declared
default, in declaration order, through its descriptor. -/
def initLoop (kwargs : List (String × Value)) : List Field → Store → Except String Store
  | [], store => Except.ok store
  | f :: fs, store =>
    if f.isInit then
      match setattrF f store ((kwargs.lookup f.name).getD f.default) with
      | (store', none) => initLoop kwargs fs store'
      | (_, some e) => Except.error e
    else initLoop kwargs fs store

/-- The store-rebuilding loop of `__post_init__`: walking the declared
fields in order, padding fields are skipped, `constant` fields receive
their default, `autolength` fields receive
`struct.calcsize(formatstring) + offset`, `function` fields receive the
resolver itself, and every other field is re-inserted with its current
value — leaving `__dict__` in declaration order. -/
def postInit (s : Schema) (store : Store) : Store :=
  go s.fields
where
  go : List Field → Store
    | [] => []
    | f :: fs =>
      if f.isPadding then go fs
      else match f.kind with
        | FieldKind.const d => (f.name, Entry.val d) :: go fs
        | FieldKind.auto off =>
          (f.name, Entry.val (Value.int ((calcsize s.fmtItems : Int) + off))) :: go fs
        | FieldKind.calcF g _ => (f.name, Entry.fn g) :: go fs
        | _ =>
          match storeGet store f.name with
          | some e => (f.name, e) :: go fs
          | none => go fs

/-- `Cls(**kwargs)` / `Cls(binarydata)`: Python's signature binding
rejects a keyword naming no `init=True` field (`TypeError`) before any
store exists; then the generated `__init__` runs its assignments,
`__post_init__` rebuilds the dict and, when a binary payload was given,
`frombytes` decodes it. -/
def mkInstance (s : Schema) (kwargs : List (String × Value)) (binarydata : List Nat) :
    Except String Store :=
  if kwargs.all (fun p => (s.fields.filter Field.isInit).any fun f => f.name = p.1) then
    match initLoop kwargs s.fields [] with
    | Except.error e => Except.error e
    | Except.ok st =>
      let st2 := postInit s st
      if binarydata = [] then Except.ok st2
      else
        match frombytes s st2 binarydata with
        | (st3, none) => Except.ok st3
        | (_, some e) => Except.error e
  else Except.error "__init__() got an unexpected keyword argument"

/-! ## Layout size -/

/-- The declared width of one field (`Padding` counts its full repeat
count, string fields their declared length). -/
def Field.width (f : Field) : Nat := f.prim.fmt.size

/-- `layoutSize`: the sum of the declared field widths. -/
def layoutSize (fields : List Field) : Nat :=
  (fields.map fun f => f.width).sum

/-! ## Concrete schemas from the test-suite -/

/-- `class TempHum(BinmapDataclass): temp: unsignedchar = 0; humidity: unsignedchar = 0` -/
def tempHumFields : List Field :=
  [⟨"temp", Prim.num false 1, FieldKind.plain, Value.int 0⟩,
   ⟨"humidity", Prim.num false 1, FieldKind.plain, Value.int 0⟩]

def tempHumS : Schema :=
  ⟨tempHumFields, [FmtItem.num false 1, FmtItem.num false 1], none⟩

/-- `class ConstValues(BinmapDataclass): datatype: unsignedchar = constant(0x15); status: unsignedchar = 0` -/
def constValuesFields : List Field :=
  [⟨"datatype", Prim.num false 1, FieldKind.const (Value.int 0x15), Value.int 0x15⟩,
   ⟨"status", Prim.num false 1, FieldKind.plain, Value.int 0⟩]

def constValuesS : Schema :=
  ⟨constValuesFields, [FmtItem.num false 1, FmtItem.num false 1], none⟩

/-- A `ConstValues` variant declaring the plain field *before* the
constant: `status: unsignedchar = 0; datatype: unsignedchar = constant(0x15)`. -/
def statusFirstFields : List Field :=
  [⟨"status", Prim.num false 1, FieldKind.plain, Value.int 0⟩,
   ⟨"datatype", Prim.num false 1, FieldKind.const (Value.int 0x15), Value.int 0x15⟩]

def statusFirstS : Schema :=
  ⟨statusFirstFields, [FmtItem.num false 1, FmtItem.num false 1], none⟩

/-- `class AutoLength(BinmapDataclass): length: unsignedchar = autolength(); temp: signedchar = 0` -/
def autoLengthFields : List Field :=
  [⟨"length", Prim.num false 1, FieldKind.auto 0, Value.int 0⟩,
   ⟨"temp", Prim.num true 1, FieldKind.plain, Value.int 0⟩]

def autoLengthS : Schema :=
  ⟨autoLengthFields, [FmtItem.num false 1, FmtItem.num true 1], none⟩

/-- The `WindEnum` mapping: North=0, East=1, South=2, West=3. -/
def windMapping : List (Int × String) :=
  [(0, "North"), (1, "East"), (2, "South"), (3, "West")]

/-- `class EnumClass(BinmapDataclass): temp: unsignedchar = 0; wind: unsignedchar = enumfield(WindEnum, default=WindEnum.East)` -/
def enumClassFields : List Field :=
  [⟨"temp", Prim.num false 1, FieldKind.plain, Value.int 0⟩,
   ⟨"wind", Prim.num false 1, FieldKind.enum windMapping (Value.int 1), Value.int 1⟩]

def enumClassS : Schema :=
  ⟨enumClassFields, [FmtItem.num false 1, FmtItem.num false 1], none⟩

/-- The `chk_last` resolver of `CalculatedFieldLast`: sum the
non-underscore, non-callable `__dict__` values and mask to a byte.  The
value view already excludes callables, every value in this schema is an
integer, and no field name of this schema starts with an underscore, so
the sum runs over all integer entries of the view. -/
def chkLast (view : List (String × Value)) : Value :=
  Value.int
    ((view.foldl
        (fun acc p =>
          match p.2 with
          | Value.int i => acc + i
          | _ => acc)
        0) % 256)

/-- `class CalculatedFieldLast(BinmapDataclass): temp: signedchar = 0;
checksum: unsignedchar = calculatedfield(chk_last, last=True); hum: unsignedchar = 0` —
the trailing field is declared *between* the two plain fields. -/
def calcLastFields : List Field :=
  [⟨"temp", Prim.num true 1, FieldKind.plain, Value.int 0⟩,
   ⟨"checksum", Prim.num false 1, FieldKind.calcF chkLast true, Value.int 0⟩,
   ⟨"hum", Prim.num false 1, FieldKind.plain, Value.int 0⟩]

def calcLastS : Schema :=
  ⟨calcLastFields, [FmtItem.num true 1, FmtItem.num false 1], some (FmtItem.num false 1)⟩

/-! ## Validity of a value for a format item -/

/-- A value that fits a format item exactly: an integer within the
format's range, a boolean for `?`, or a byte string of exactly the
declared length for `"Ns"` (shorter or longer byte strings are accepted
by `struct.pack`, but zero-padded or truncated, so only exact-length
strings round-trip). -/
def fitsItem : FmtItem → Value → Prop
  | FmtItem.num true w, Value.int i =>
    -(((256:Int) ^ w) / 2) ≤ i ∧ i < ((256:Int) ^ w) / 2
  | FmtItem.num false w, Value.int i => 0 ≤ i ∧ i < (256:Int) ^ w
  | FmtItem.boolean, Value.bool _ => True
  | FmtItem.string n, Value.str s => s.length = n
  | _, _ => False

/-- A value that fits a primitive exactly. -/
def fitsExact (p : Prim) (v : Value) : Prop := fitsItem p.fmt v


/-- Arity-correct fitting of an argument list against a format list
(`x` items consume no argument). -/
def FitsVals : List FmtItem → List Value → Prop
  | [], [] => True
  | [], _ :: _ => False
  | FmtItem.pad _ :: rest, vals => FitsVals rest vals
  | _ :: _, [] => False
  | item :: rest, v :: vals => fitsItem item v ∧ FitsVals rest vals


/-! ## Valid instances

A constructed instance's `__dict__` holds one entry per non-padding field,
in declaration order (`__post_init__` re-establishes this order).  `Corr`
relates a suffix of the declared field list to the corresponding suffix of
the store; a *valid* instance is one whose values fit their declared
primitives exactly (integers in range, booleans, byte strings of the
declared length), whose enum fields hold mapped raw integers, and whose
calculated fields hold their declared resolver. -/

/-- The value `__bytes__` obtains from one `__dict__` entry
(`if callable(v): v = v(self)`). -/
def entryValue (view : List (String × Value)) : Entry → Value
  | Entry.val v => v
  | Entry.fn g => g view

/-- A valid `__dict__` entry for a field. -/
def ValidEntry (view : List (String × Value)) (f : Field) (e : Entry) : Prop :=
  match f.kind with
  | FieldKind.enum m _ =>
    ∃ i, e = Entry.val (Value.int i) ∧ enumHasRaw m i = true ∧
      fitsExact f.prim (Value.int i)
  | FieldKind.calcF g _ => e = Entry.fn g ∧ fitsExact f.prim (g view)
  | _ => ∃ v, e = Entry.val v ∧ fitsExact f.prim v

/-- Correspondence between (a suffix of) the declared fields and (a
suffix of) the instance store: padding fields have no entry (they are
produced only by the `padding()` generator, which sets neither special
metadata nor `last`), every other field has its entry next, with the
field findable by name in the full declaration list (field names are
unique in `dataclasses.fields`). -/
inductive Corr (all : List Field) (view : List (String × Value)) :
    List Field → Store → Prop where
  | nil : Corr all view [] []
  | pad {f : Field} {flds : List Field} {store : Store} :
      f.isPadding = true → f.isLast = false →
      Corr all view flds store → Corr all view (f :: flds) store
  | entry {f : Field} {flds : List Field} {e : Entry} {store : Store} :
      f.isPadding = false → findField all f.name = some f →
      ValidEntry view f e → Corr all view flds store →
      Corr all view (f :: flds) ((f.name, e) :: store)

/-- A valid instance of a schema. -/
def ValidInstance (s : Schema) (store : Store) : Prop :=
  Corr s.fields (valueView store) s.fields store


/-- A field that is neither `Constant`, `AutoLength` nor `Calculated`. -/
def plainOrEnum (f : Field) : Prop :=
  match f.kind with
  | FieldKind.plain => True
  | FieldKind.enum _ _ => True
  | _ => False


theorem toBytesBE_length (w n : Nat) : (toBytesBE w n).length = w := by
  induction w generalizing n with
  | zero => rfl
  | succ w ih => simp [toBytesBE, ih]

theorem fromBytesBE_append (bs cs : List Nat) :
    fromBytesBE (bs ++ cs) = cs.foldl (fun acc b => acc * 256 + b) (fromBytesBE bs) := by
  simp [fromBytesBE, List.foldl_append]

theorem fromBytesBE_toBytesBE (w n : Nat) (h : n < 256 ^ w) :
    fromBytesBE (toBytesBE w n) = n := by
  induction w generalizing n with
  | zero =>
    simp [toBytesBE, fromBytesBE]
    omega
  | succ w ih =>
    have hdiv : n / 256 < 256 ^ w := by
      rw [Nat.div_lt_iff_lt_mul (by norm_num : 0 < 256)]
      calc n < 256 ^ (w + 1) := h
        _ = 256 ^ w * 256 := by ring
    rw [toBytesBE, fromBytesBE_append]
    simp only [List.foldl_cons, List.foldl_nil, ih (n / 256) hdiv]
    omega


/-! The concrete schemas above are exactly what `compile` produces from
their declaration lists. -/

example : compile tempHumFields = Except.ok tempHumS := by rfl
example : compile constValuesFields = Except.ok constValuesS := by rfl
example : compile statusFirstFields = Except.ok statusFirstS := by rfl
example : compile autoLengthFields = Except.ok autoLengthS := by rfl
example : compile enumClassFields = Except.ok enumClassS := by rfl
example : compile calcLastFields = Except.ok calcLastS := by rfl

/-! Sanity checks against the Python test-suite. -/

example :
    mkInstance tempHumS [("temp", Value.int 10), ("humidity", Value.int 60)] [] =
      Except.ok [("temp", Entry.val (Value.int 10)), ("humidity", Entry.val (Value.int 60))] := by
  rfl

example :
    encodeB tempHumS [("temp", Entry.val (Value.int 10)), ("humidity", Entry.val (Value.int 60))] =
      some [10, 60] := by rfl

example :
    mkInstance constValuesS [("status", Value.int 1)] [] =
      Except.ok [("datatype", Entry.val (Value.int 0x15)), ("status", Entry.val (Value.int 1))] := by
  rfl

example :
    mkInstance constValuesS [] [0x14, 0x01] =
      Except.error "Constant doesn't match binary data" := by rfl

example :
    mkInstance constValuesS [] [0x15, 0x01] =
      Except.ok [("datatype", Entry.val (Value.int 0x15)), ("status", Entry.val (Value.int 1))] := by
  rfl

example :
    mkInstance autoLengthS [("temp", Value.int 10)] [] =
      Except.ok [("length", Entry.val (Value.int 2)), ("temp", Entry.val (Value.int 10))] := by
  rfl

example :
    encodeB autoLengthS [("length", Entry.val (Value.int 2)), ("temp", Entry.val (Value.int 10))] =
      some [2, 10] := by rfl

example : mkInstance autoLengthS [] [1, 10] = Except.error "Length doesn't match" := by rfl

/-- `bytes(Bigendian(value=-10)) == b"\xff\xff\xff\xff\xff\xff\xff\xf6"` -/
example :
    structPack [FmtItem.num true 8] [Value.int (-10)] =
      some [0xff, 0xff, 0xff, 0xff, 0xff, 0xff, 0xff, 0xf6] := by rfl

example :
    mkInstance calcLastS [("temp", Value.int 10), ("hum", Value.int 20)] [] =
      Except.ok [("temp", Entry.val (Value.int 10)), ("checksum", Entry.fn chkLast),
        ("hum", Entry.val (Value.int 20))] := by rfl

/-- `bytes(cfl)` with `temp=10, hum=20` is `b"\x0a\x14\x1e"` (test-suite). -/
example :
    encodeB calcLastS [("temp", Entry.val (Value.int 10)), ("checksum", Entry.fn chkLast),
      ("hum", Entry.val (Value.int 20))] = some [10, 20, 30] := by decide

/-- Decoding `CalculatedFieldLast`'s own encoding into a freshly
constructed instance fails: the unpacked `hum` byte (physical position 2)
is matched against the `checksum` field (declaration position 2). -/
example :
    frombytes calcLastS
      [("temp", Entry.val (Value.int 0)), ("checksum", Entry.fn chkLast),
        ("hum", Entry.val (Value.int 0))] [10, 20, 30] =
      ([("temp", Entry.val (Value.int 10)), ("checksum", Entry.fn chkLast),
        ("hum", Entry.val (Value.int 0))], some "Wrong calculated value") := by rfl

/-- Decoding `status`-before-constant leaves `status` mutated when the
constant check fails. -/
example :
    frombytes statusFirstS
      [("status", Entry.val (Value.int 0)), ("datatype", Entry.val (Value.int 0x15))]
      [5, 0x14] =
      ([("status", Entry.val (Value.int 5)), ("datatype", Entry.val (Value.int 0x15))],
        some "Constant doesn't match binary data") := by rfl

/-- Decoding an unmapped enum raw value fails through `EnumField.__set__`. -/
example :
    frombytes enumClassS
      [("temp", Entry.val (Value.int 0)), ("wind", Entry.val (Value.int 1))] [10, 5] =
      ([("temp", Entry.val (Value.int 10)), ("wind", Entry.val (Value.int 1))],
        some "is not a valid enum") := by rfl

theorem calcsize_nil : calcsize [] = 0 := rfl

theorem calcsize_cons (i : FmtItem) (rest : List FmtItem) :
    calcsize (i :: rest) = i.size + calcsize rest := by
  simp [calcsize]

/-- A fitting value passes `BinField.__set__`'s bounds check. -/
theorem checkSet_of_fitsExact {p : Prim} {v : Value} (h : fitsExact p v) :
    checkSet p v = true := by
  cases p with
  | num signed w =>
    cases v with
    | int i =>
      cases signed <;> simp only [fitsExact, fitsItem, Prim.fmt] at h <;>
        simp [checkSet, h.1, h.2]
    | bool b => cases signed <;> exact absurd h (by simp [fitsExact, fitsItem, Prim.fmt])
    | str s => cases signed <;> exact absurd h (by simp [fitsExact, fitsItem, Prim.fmt])
    | pystr s => cases signed <;> exact absurd h (by simp [fitsExact, fitsItem, Prim.fmt])
  | boolean => rfl
  | string n =>
    cases v with
    | str s => rfl
    | int i => exact absurd h (by simp [fitsExact, fitsItem, Prim.fmt])
    | bool b => exact absurd h (by simp [fitsExact, fitsItem, Prim.fmt])
    | pystr s => exact absurd h (by simp [fitsExact, fitsItem, Prim.fmt])
  | pad n => rfl

/-- A fitting value packs, to exactly the item's width. -/
theorem packValue1_of_fitsItem {item : FmtItem} {v : Value} (h : fitsItem item v) :
    ∃ bs, packValue1 item v = some bs ∧ bs.length = item.size := by
  cases item with
  | num signed w =>
    cases v with
    | int i =>
      cases signed with
      | true =>
        simp only [fitsItem] at h
        refine ⟨toBytesBE w (i.emod ((256:Int) ^ w)).toNat, ?_, ?_⟩
        · simp [packValue1, h.1, h.2]
        · simp [FmtItem.size, toBytesBE_length]
      | false =>
        simp only [fitsItem] at h
        refine ⟨toBytesBE w i.toNat, ?_, ?_⟩
        · simp [packValue1, h.1, h.2]
        · simp [FmtItem.size, toBytesBE_length]
    | bool b => cases signed <;> exact absurd h (by simp [fitsItem])
    | str s => cases signed <;> exact absurd h (by simp [fitsItem])
    | pystr s => cases signed <;> exact absurd h (by simp [fitsItem])
  | boolean =>
    cases v with
    | bool b => exact ⟨_, rfl, rfl⟩
    | int i => exact absurd h (by simp [fitsItem])
    | str s => exact absurd h (by simp [fitsItem])
    | pystr s => exact absurd h (by simp [fitsItem])
  | string n =>
    cases v with
    | str s =>
      simp only [fitsItem] at h
      refine ⟨_, rfl, ?_⟩
      simp [FmtItem.size, h]
    | int i => exact absurd h (by simp [fitsItem])
    | bool b => exact absurd h (by simp [fitsItem])
    | pystr s => exact absurd h (by simp [fitsItem])
  | pad n => exact absurd h (by simp [fitsItem])

/-- Any successful pack of one item emits exactly the item's width. -/
theorem packValue1_length {item : FmtItem} {v : Value} {bs : List Nat}
    (h : packValue1 item v = some bs) : bs.length = item.size := by
  cases item with
  | num signed w =>
    cases v with
    | int i =>
      cases signed <;> simp only [packValue1] at h <;> split at h <;>
        first
          | exact (Option.some.inj h) ▸ toBytesBE_length _ _
          | simp at h
    | bool b => cases signed <;> simp [packValue1] at h
    | str s => cases signed <;> simp [packValue1] at h
    | pystr s => cases signed <;> simp [packValue1] at h
  | boolean =>
    cases v <;> simp only [packValue1, Option.some_inj] at h <;> subst h <;> rfl
  | string n =>
    cases v with
    | str s =>
      simp only [packValue1, Option.some_inj] at h
      subst h
      simp [FmtItem.size]
      omega
    | int i => simp [packValue1] at h
    | bool b => simp [packValue1] at h
    | pystr s => simp [packValue1] at h
  | pad n => cases v <;> simp [packValue1] at h

/-- A successful `struct.pack` emits exactly `struct.calcsize` bytes. -/
theorem structPack_length :
    ∀ {items : List FmtItem} {vals : List Value} {bs : List Nat},
      structPack items vals = some bs → bs.length = calcsize items := by
  intro items
  induction items with
  | nil => intro vals bs h; cases vals <;> simp_all [structPack, calcsize]
  | cons item rest ih =>
    intro vals bs h
    match item, vals with
    | FmtItem.pad n, vals =>
      simp only [structPack] at h
      obtain ⟨tl, htl, rfl⟩ := Option.map_eq_some'.mp h
      simp [calcsize_cons, FmtItem.size, ih htl]
    | FmtItem.num s w, [] => simp [structPack] at h
    | FmtItem.boolean, [] => simp [structPack] at h
    | FmtItem.string n, [] => simp [structPack] at h
    | FmtItem.num s w, v :: vals =>
      simp only [structPack, Option.bind_eq_bind, Option.bind_eq_some] at h
      obtain ⟨b1, hb1, tl, htl, heq⟩ := h
      obtain rfl : b1 ++ tl = bs := Option.some.inj heq
      simp [calcsize_cons, packValue1_length hb1, ih htl]
    | FmtItem.boolean, v :: vals =>
      simp only [structPack, Option.bind_eq_bind, Option.bind_eq_some] at h
      obtain ⟨b1, hb1, tl, htl, heq⟩ := h
      obtain rfl : b1 ++ tl = bs := Option.some.inj heq
      simp [calcsize_cons, packValue1_length hb1, ih htl]
    | FmtItem.string n, v :: vals =>
      simp only [structPack, Option.bind_eq_bind, Option.bind_eq_some] at h
      obtain ⟨b1, hb1, tl, htl, heq⟩ := h
      obtain rfl : b1 ++ tl = bs := Option.some.inj heq
      simp [calcsize_cons, packValue1_length hb1, ih htl]

/-- Packing a split argument list against a split format list
concatenates the outputs. -/
theorem structPack_append :
    ∀ {xs : List FmtItem} {us : List Value} {bs : List Nat},
      structPack xs us = some bs →
      ∀ {ys : List FmtItem} {vs : List Value} {cs : List Nat},
        structPack ys vs = some cs →
        structPack (xs ++ ys) (us ++ vs) = some (bs ++ cs) := by
  intro xs
  induction xs with
  | nil =>
    intro us bs h ys vs cs h2
    cases us with
    | nil => simp only [structPack, Option.some_inj] at h; subst h; simpa using h2
    | cons u us => simp [structPack] at h
  | cons item rest ih =>
    intro us bs h ys vs cs h2
    match item, us with
    | FmtItem.pad n, us =>
      simp only [structPack] at h
      obtain ⟨tl, htl, rfl⟩ := Option.map_eq_some'.mp h
      simp [structPack, ih htl h2]
    | FmtItem.num s w, [] => simp [structPack] at h
    | FmtItem.boolean, [] => simp [structPack] at h
    | FmtItem.string n, [] => simp [structPack] at h
    | FmtItem.num s w, v :: us =>
      simp only [structPack, Option.bind_eq_bind, Option.bind_eq_some] at h ⊢
      obtain ⟨b1, hb1, tl, htl, heq⟩ := h
      obtain rfl : b1 ++ tl = bs := Option.some.inj heq
      exact ⟨b1, hb1, tl ++ cs, ih htl h2, by simp⟩
    | FmtItem.boolean, v :: us =>
      simp only [structPack, Option.bind_eq_bind, Option.bind_eq_some] at h ⊢
      obtain ⟨b1, hb1, tl, htl, heq⟩ := h
      obtain rfl : b1 ++ tl = bs := Option.some.inj heq
      exact ⟨b1, hb1, tl ++ cs, ih htl h2, by simp⟩
    | FmtItem.string n, v :: us =>
      simp only [structPack, Option.bind_eq_bind, Option.bind_eq_some] at h ⊢
      obtain ⟨b1, hb1, tl, htl, heq⟩ := h
      obtain rfl : b1 ++ tl = bs := Option.some.inj heq
      exact ⟨b1, hb1, tl ++ cs, ih htl h2, by simp⟩

/-- The cast of `(256 : Nat) ^ w` into `Int`. -/
theorem cast_pow256 (w : Nat) : ((256 ^ w : Nat) : Int) = (256:Int) ^ w := by
  push_cast
  ring

/-- Decoding the two's-complement encoding of a signed in-range integer
recovers it. -/
theorem decodeNum_signed (w : Nat) (i : Int)
    (hlo : -(((256:Int) ^ w) / 2) ≤ i) (hhi : i < ((256:Int) ^ w) / 2) :
    decodeNum true w (i.emod ((256:Int) ^ w)).toNat = i := by
  have hB : (0:Int) < (256:Int) ^ w := by positivity
  have hmod0 : 0 ≤ i.emod ((256:Int) ^ w) := Int.emod_nonneg i (ne_of_gt hB)
  have hmodB : i.emod ((256:Int) ^ w) < (256:Int) ^ w := Int.emod_lt_of_pos i hB
  have hcast : (((i.emod ((256:Int) ^ w)).toNat : Nat) : Int) = i.emod ((256:Int) ^ w) :=
    Int.toNat_of_nonneg hmod0
  have hdiv2 : 2 * (((256:Int) ^ w) / 2) ≤ (256:Int) ^ w ∧
      (256:Int) ^ w ≤ 2 * (((256:Int) ^ w) / 2) + 1 := by
    have h1 := Int.ediv_add_emod ((256:Int) ^ w) 2
    have h2 := Int.emod_nonneg ((256:Int) ^ w) (by norm_num : (2:Int) ≠ 0)
    have h3 := Int.emod_lt_of_pos ((256:Int) ^ w) (by norm_num : (0:Int) < 2)
    omega
  rcases le_or_lt 0 i with hi | hi
  · have hemod : i.emod ((256:Int) ^ w) = i := Int.emod_eq_of_lt hi (by omega)
    simp only [decodeNum, hemod, Int.toNat_of_nonneg hi]
    rw [if_pos hhi]
  · have hemod : i.emod ((256:Int) ^ w) = i + (256:Int) ^ w := by
      have h1 : (i + (256:Int) ^ w).emod ((256:Int) ^ w) = i.emod ((256:Int) ^ w) := by
        have h0 := Int.add_mul_emod_self_left (a := i) (b := (256:Int) ^ w) (c := 1)
        rwa [mul_one] at h0
      have h2 : (i + (256:Int) ^ w).emod ((256:Int) ^ w) = i + (256:Int) ^ w :=
        Int.emod_eq_of_lt (by omega) (by omega)
      omega
    have h4 : (((i + (256:Int) ^ w).toNat : Nat) : Int) = i + (256:Int) ^ w :=
      Int.toNat_of_nonneg (by omega)
    simp only [decodeNum, hemod, h4]
    rw [if_neg (by omega)]
    omega

/-- Decoding the encoding of an unsigned in-range integer recovers it. -/
theorem decodeNum_unsigned (w : Nat) (i : Int) (hlo : 0 ≤ i) :
    decodeNum false w i.toNat = i := by
  simp [decodeNum, Int.toNat_of_nonneg hlo]

/-- Unpacking one item's fitting encoding from the front of a buffer
yields the value back. -/
theorem structUnpack_cons_of_pack {item : FmtItem} {v : Value} {bs : List Nat}
    (hfit : fitsItem item v) (hpack : packValue1 item v = some bs) :
    ∀ rest buf, structUnpack (item :: rest) (bs ++ buf) =
      (structUnpack rest buf).map (v :: ·) := by
  intro rest buf
  have hlen : bs.length = item.size := packValue1_length hpack
  cases item with
  | num signed w =>
    have hbs : bs.length = w := hlen
    have hw : w ≤ (bs ++ buf).length := by simp [hbs]
    have htake : (bs ++ buf).take w = bs := by rw [← hbs, List.take_left]
    have hdrop : (bs ++ buf).drop w = buf := by rw [← hbs, List.drop_left]
    cases v with
    | int i =>
      cases signed with
      | true =>
        simp only [fitsItem] at hfit
        simp only [packValue1] at hpack
        rw [if_pos hfit] at hpack
        obtain rfl : toBytesBE w (i.emod ((256:Int) ^ w)).toNat = bs :=
          Option.some.inj hpack
        simp only [structUnpack, if_pos hw, htake, hdrop]
        have hB : (0:Int) < (256:Int) ^ w := by positivity
        have hmod0 : 0 ≤ i.emod ((256:Int) ^ w) := Int.emod_nonneg i (ne_of_gt hB)
        have hmodB : i.emod ((256:Int) ^ w) < (256:Int) ^ w := Int.emod_lt_of_pos i hB
        have hnatlt : (i.emod ((256:Int) ^ w)).toNat < 256 ^ w := by
          have hc := cast_pow256 w
          omega
        rw [fromBytesBE_toBytesBE w _ hnatlt, decodeNum_signed w i hfit.1 hfit.2]
      | false =>
        simp only [fitsItem] at hfit
        simp only [packValue1] at hpack
        rw [if_pos hfit] at hpack
        obtain rfl : toBytesBE w i.toNat = bs := Option.some.inj hpack
        simp only [structUnpack, if_pos hw, htake, hdrop]
        have hnatlt : i.toNat < 256 ^ w := by
          have hc := cast_pow256 w
          omega
        rw [fromBytesBE_toBytesBE w _ hnatlt, decodeNum_unsigned w i hfit.1]
    | bool b => exact absurd hfit (by cases signed <;> simp [fitsItem])
    | str s => exact absurd hfit (by cases signed <;> simp [fitsItem])
    | pystr s => exact absurd hfit (by cases signed <;> simp [fitsItem])
  | boolean =>
    cases v with
    | bool b =>
      obtain rfl : [if truthy (Value.bool b) = true then 1 else 0] = bs :=
        Option.some.inj hpack
      cases b <;> simp [structUnpack, truthy]
    | int i => exact absurd hfit (by simp [fitsItem])
    | str s => exact absurd hfit (by simp [fitsItem])
    | pystr s => exact absurd hfit (by simp [fitsItem])
  | string n =>
    cases v with
    | str s =>
      have hsn : s.length = n := hfit
      obtain rfl : s.take n ++ List.replicate (n - s.length) 0 = bs :=
        Option.some.inj hpack
      have hbs : s.take n ++ List.replicate (n - s.length) 0 = s := by
        rw [← hsn]
        simp
      rw [hbs]
      have hn : n ≤ (s ++ buf).length := by simp; omega
      have htake : (s ++ buf).take n = s := by rw [← hsn, List.take_left]
      have hdrop : (s ++ buf).drop n = buf := by rw [← hsn, List.drop_left]
      simp only [structUnpack, if_pos hn, htake, hdrop]
    | int i => exact absurd hfit (by simp [fitsItem])
    | bool b => exact absurd hfit (by simp [fitsItem])
    | pystr s => exact absurd hfit (by simp [fitsItem])
  | pad n => cases v <;> simp [packValue1] at hpack

/-- Unpacking a fitting pack recovers the argument list exactly. -/
theorem structUnpack_of_pack :
    ∀ {items : List FmtItem} {vals : List Value} {bs : List Nat},
      FitsVals items vals → structPack items vals = some bs →
      structUnpack items bs = some vals := by
  intro items
  induction items with
  | nil =>
    intro vals bs hfit h
    cases vals with
    | nil =>
      obtain rfl : ([] : List Nat) = bs := Option.some.inj h
      rfl
    | cons v vals => exact absurd hfit (by simp [FitsVals])
  | cons item rest ih =>
    intro vals bs hfit h
    match item, vals with
    | FmtItem.pad n, vals =>
      simp only [structPack] at h
      obtain ⟨tl, htl, rfl⟩ := Option.map_eq_some'.mp h
      have hrec := ih (by simpa [FitsVals] using hfit) htl
      have hlen : n ≤ (List.replicate n 0 ++ tl).length := by simp
      simp only [structUnpack, if_pos hlen]
      rw [List.drop_append_of_le_length (by simp)]
      simp [hrec]
    | FmtItem.num s w, [] => exact absurd hfit (by simp [FitsVals])
    | FmtItem.boolean, [] => exact absurd hfit (by simp [FitsVals])
    | FmtItem.string n, [] => exact absurd hfit (by simp [FitsVals])
    | FmtItem.num s w, v :: vals =>
      simp only [structPack, Option.bind_eq_bind, Option.bind_eq_some] at h
      obtain ⟨b1, hb1, tl, htl, heq⟩ := h
      obtain rfl : b1 ++ tl = bs := Option.some.inj heq
      obtain ⟨hf1, hfr⟩ := hfit
      rw [structUnpack_cons_of_pack hf1 hb1 rest tl, ih hfr htl]
      rfl
    | FmtItem.boolean, v :: vals =>
      simp only [structPack, Option.bind_eq_bind, Option.bind_eq_some] at h
      obtain ⟨b1, hb1, tl, htl, heq⟩ := h
      obtain rfl : b1 ++ tl = bs := Option.some.inj heq
      obtain ⟨hf1, hfr⟩ := hfit
      rw [structUnpack_cons_of_pack hf1 hb1 rest tl, ih hfr htl]
      rfl
    | FmtItem.string n, v :: vals =>
      simp only [structPack, Option.bind_eq_bind, Option.bind_eq_some] at h
      obtain ⟨b1, hb1, tl, htl, heq⟩ := h
      obtain rfl : b1 ++ tl = bs := Option.some.inj heq
      obtain ⟨hf1, hfr⟩ := hfit
      rw [structUnpack_cons_of_pack hf1 hb1 rest tl, ih hfr htl]
      rfl

/-! ## Characterisation of `__init_subclass__` -/

/-- On success, `compileAux` appends the non-`last` fields' items to the
accumulator and carries the held-back item through. -/
theorem compileAux_ok :
    ∀ {fields : List Field} {acc : List FmtItem} {lf : Option FmtItem}
      {out : List FmtItem × Option FmtItem},
      compileAux fields acc lf = Except.ok out →
      out.1 = acc ++ (fields.filter fun f => !f.isLast).map (fun f => f.prim.fmt) ∧
      out.2 = (match lf with
        | some x => some x
        | none => (fields.find? Field.isLast).map fun f => f.prim.fmt) := by
  intro fields
  induction fields with
  | nil =>
    intro acc lf out h
    obtain rfl : (acc, lf) = out := by
      simpa [compileAux] using h
    cases lf <;> simp [List.find?]
  | cons f fs ih =>
    intro acc lf out h
    by_cases hlast : f.isLast
    · simp only [compileAux, if_pos hlast] at h
      cases lf with
      | some x => exact absurd h (by simp)
      | none =>
        obtain ⟨h1, h2⟩ := ih h
        refine ⟨by simpa [hlast] using h1, ?_⟩
        simpa [List.find?, hlast] using h2
    · simp only [compileAux, if_neg hlast] at h
      obtain ⟨h1, h2⟩ := ih h
      constructor
      · rw [h1]
        simp [hlast]
      · cases lf with
        | some x => simpa using h2
        | none =>
          rw [h2]
          simp [List.find?, Bool.of_not_eq_true hlast]

/-- `compileAux` with a held-back item fails as soon as another
`last=True` field appears. -/
theorem compileAux_error_of_last :
    ∀ {fields : List Field} {acc : List FmtItem} {x : FmtItem},
      1 ≤ countLast fields →
      compileAux fields acc (some x) = Except.error "Can't have more than one last" := by
  intro fields
  induction fields with
  | nil => intro acc x h; simp [countLast] at h
  | cons f fs ih =>
    intro acc x h
    by_cases hlast : f.isLast
    · simp [compileAux, if_pos hlast]
    · simp only [compileAux, if_neg hlast]
      exact ih (by simpa [countLast, List.filter, hlast] using h)

/-- Declaring two or more `last=True` fields makes `__init_subclass__`
raise. -/
theorem compileAux_error_of_two :
    ∀ {fields : List Field} {acc : List FmtItem},
      2 ≤ countLast fields →
      compileAux fields acc none = Except.error "Can't have more than one last" := by
  intro fields
  induction fields with
  | nil => intro acc h; simp [countLast] at h
  | cons f fs ih =>
    intro acc h
    by_cases hlast : f.isLast
    · simp only [compileAux, if_pos hlast]
      have hc : countLast (f :: fs) = countLast fs + 1 := by
        simp [countLast, List.filter, hlast]
      exact compileAux_error_of_last (by omega)
    · simp only [compileAux, if_neg hlast]
      exact ih (by simpa [countLast, List.filter, hlast] using h)

/-- A successful `compileAux` run starting with a held-back item saw no
further `last=True` field. -/
theorem compileAux_ok_no_last :
    ∀ {fields : List Field} {acc : List FmtItem} {x : FmtItem}
      {out : List FmtItem × Option FmtItem},
      compileAux fields acc (some x) = Except.ok out → countLast fields = 0 := by
  intro fields
  induction fields with
  | nil => intro acc x out h; rfl
  | cons f fs ih =>
    intro acc x out h
    by_cases hlast : f.isLast
    · simp [compileAux, if_pos hlast] at h
    · simp only [compileAux, if_neg hlast] at h
      simpa [countLast, List.filter, hlast] using ih h

/-- A compiled schema records its declaration list. -/
theorem compile_fields {fields : List Field} {s : Schema}
    (h : compile fields = Except.ok s) : s.fields = fields := by
  simp only [compile] at h
  rcases haux : compileAux fields [] none with e | out <;> rw [haux] at h
  · exact absurd h (by simp)
  · obtain rfl : Schema.mk fields out.1 out.2 = s := by simpa using h
    rfl

/-- A compiled schema has at most one `last=True` field. -/
theorem compile_countLast {fields : List Field} {s : Schema}
    (h : compile fields = Except.ok s) : countLast fields ≤ 1 := by
  simp only [compile] at h
  rcases haux : compileAux fields [] none with e | out <;> rw [haux] at h
  · exact absurd h (by simp)
  · by_contra hgt
    rw [compileAux_error_of_two (by omega)] at haux
    exact absurd haux (by simp)

/-- The inline items of a compiled schema are the non-`last` fields'
items in declaration order. -/
theorem compile_inline {fields : List Field} {s : Schema}
    (h : compile fields = Except.ok s) :
    s.inline = (fields.filter fun f => !f.isLast).map fun f => f.prim.fmt := by
  simp only [compile] at h
  rcases haux : compileAux fields [] none with e | out <;> rw [haux] at h
  · exact absurd h (by simp)
  · obtain rfl : Schema.mk fields out.1 out.2 = s := by simpa using h
    simpa using (compileAux_ok haux).1

/-- The trailing item of a compiled schema is the `last=True` field's
item, if any. -/
theorem compile_trailing {fields : List Field} {s : Schema}
    (h : compile fields = Except.ok s) :
    s.trailing = (fields.find? Field.isLast).map fun f => f.prim.fmt := by
  simp only [compile] at h
  rcases haux : compileAux fields [] none with e | out <;> rw [haux] at h
  · exact absurd h (by simp)
  · obtain rfl : Schema.mk fields out.1 out.2 = s := by simpa using h
    simpa using (compileAux_ok haux).2

/-- A padding field's primitive is a `pad`. -/
theorem isPadding_iff {f : Field} : f.isPadding = true ↔ ∃ n, f.prim = Prim.pad n := by
  cases hp : f.prim <;> simp [Field.isPadding, hp]

theorem countLast_cons (f : Field) (fs : List Field) :
    countLast (f :: fs) = (if f.isLast then 1 else 0) + countLast fs := by
  by_cases h : f.isLast <;> simp [countLast, List.filter, h] <;> omega

/-- With no `last=True` field, `find?` finds nothing. -/
theorem find_isLast_eq_none {fields : List Field} (h : countLast fields = 0) :
    fields.find? Field.isLast = none := by
  induction fields with
  | nil => rfl
  | cons f fs ih =>
    rw [countLast_cons] at h
    by_cases hl : f.isLast
    · simp [hl] at h
    · simp only [List.find?, Bool.of_not_eq_true hl]
      exact ih (by omega)

/-- With no `last=True` field, the filter keeps everything. -/
theorem filter_not_isLast_eq {fields : List Field} (h : countLast fields = 0) :
    fields.filter (fun f => !f.isLast) = fields := by
  induction fields with
  | nil => rfl
  | cons f fs ih =>
    rw [countLast_cons] at h
    by_cases hl : f.isLast
    · simp [hl] at h
    · simp only [List.filter, Bool.of_not_eq_true hl, Bool.not_false]
      rw [ih (by omega)]

/-- A fitting argument list packs. -/
theorem structPack_of_fits :
    ∀ {items : List FmtItem} {vals : List Value},
      FitsVals items vals → ∃ bs, structPack items vals = some bs := by
  intro items
  induction items with
  | nil =>
    intro vals hfit
    cases vals with
    | nil => exact ⟨[], rfl⟩
    | cons v vals => exact absurd hfit (by simp [FitsVals])
  | cons item rest ih =>
    intro vals hfit
    match item, vals with
    | FmtItem.pad n, vals =>
      obtain ⟨bs, hbs⟩ := ih (by simpa [FitsVals] using hfit)
      exact ⟨List.replicate n 0 ++ bs, by simp [structPack, hbs]⟩
    | FmtItem.num s w, [] => exact absurd hfit (by simp [FitsVals])
    | FmtItem.boolean, [] => exact absurd hfit (by simp [FitsVals])
    | FmtItem.string n, [] => exact absurd hfit (by simp [FitsVals])
    | FmtItem.num s w, v :: vals =>
      obtain ⟨hf1, hfr⟩ := hfit
      obtain ⟨b1, hb1, _⟩ := packValue1_of_fitsItem hf1
      obtain ⟨bs, hbs⟩ := ih hfr
      exact ⟨b1 ++ bs, by simp [structPack, hb1, hbs]⟩
    | FmtItem.boolean, v :: vals =>
      obtain ⟨hf1, hfr⟩ := hfit
      obtain ⟨b1, hb1, _⟩ := packValue1_of_fitsItem hf1
      obtain ⟨bs, hbs⟩ := ih hfr
      exact ⟨b1 ++ bs, by simp [structPack, hb1, hbs]⟩
    | FmtItem.string n, v :: vals =>
      obtain ⟨hf1, hfr⟩ := hfit
      obtain ⟨b1, hb1, _⟩ := packValue1_of_fitsItem hf1
      obtain ⟨bs, hbs⟩ := ih hfr
      exact ⟨b1 ++ bs, by simp [structPack, hb1, hbs]⟩

/-- The outcome of the `__bytes__` value-collection loop on a valid
suffix: the inline values fit the non-`last` fields' items, and the
held-back value matches the `last` field, if any. -/
theorem bytesValuesAux_corr {all : List Field} {view : List (String × Value)} :
    ∀ {flds : List Field} {store : Store},
      Corr all view flds store → countLast flds ≤ 1 →
      ∃ vals lastv,
        bytesValuesAux all view store = some (vals, lastv) ∧
        FitsVals ((flds.filter fun f => !f.isLast).map fun f => f.prim.fmt) vals ∧
        (match flds.find? Field.isLast with
          | none => lastv = none
          | some lf => ∃ v, lastv = some v ∧ fitsItem lf.prim.fmt v) := by
  intro flds store hcorr
  induction hcorr with
  | nil => intro _; exact ⟨[], none, rfl, trivial, rfl⟩
  | @pad f flds' store' hpad hlast _ ih =>
    intro hcount
    rw [countLast_cons, if_neg (by simp [hlast])] at hcount
    obtain ⟨vals, lastv, h1, h2, h3⟩ := ih (by omega)
    refine ⟨vals, lastv, h1, ?_, ?_⟩
    · obtain ⟨n, hn⟩ := isPadding_iff.mp hpad
      simpa [List.filter, hlast, hn, Prim.fmt, FitsVals] using h2
    · simpa [List.find?, hlast] using h3
  | @entry f flds' e store' hpad hfind hval _ ih =>
    intro hcount
    rw [countLast_cons] at hcount
    by_cases hl : f.isLast
    · rw [if_pos hl] at hcount
      have hzero : countLast flds' = 0 := by omega
      obtain ⟨vals, lastv, h1, h2, h3⟩ := ih (by omega)
      rw [find_isLast_eq_none hzero] at h3
      subst h3
      have hcalc : ∃ g, f.kind = FieldKind.calcF g true := by
        cases hk : f.kind <;> simp_all [Field.isLast]
      obtain ⟨g, hg⟩ := hcalc
      have he : e = Entry.fn g ∧ fitsExact f.prim (g view) := by
        simpa [ValidEntry, hg] using hval
      refine ⟨vals, some (g view), ?_, ?_, ?_⟩
      · simp only [bytesValuesAux, hfind, Option.bind_eq_bind, Option.some_bind]
        rw [h1]
        simp [he.1, entryValue, hl]
      · simpa [List.filter, hl] using h2
      · simp only [List.find?, hl]
        exact ⟨g view, rfl, he.2⟩
    · rw [if_neg hl] at hcount
      obtain ⟨vals, lastv, h1, h2, h3⟩ := ih (by omega)
      have hfitv : fitsItem f.prim.fmt (entryValue view e) := by
        cases hk : f.kind <;> simp only [ValidEntry, hk] at hval
        case plain => obtain ⟨v, rfl, hfit⟩ := hval; exact hfit
        case const => obtain ⟨v, rfl, hfit⟩ := hval; exact hfit
        case enum => obtain ⟨i, rfl, _, hfit⟩ := hval; exact hfit
        case auto => obtain ⟨v, rfl, hfit⟩ := hval; exact hfit
        case calcF => obtain ⟨rfl, hfit⟩ := hval; exact hfit
      refine ⟨entryValue view e :: vals, lastv, ?_, ?_, ?_⟩
      · simp only [bytesValuesAux, hfind, Option.bind_eq_bind, Option.some_bind]
        rw [h1]
        simp [hl, entryValue]
      · have hstep :
            ((f :: flds').filter fun f => !f.isLast).map (fun f => f.prim.fmt) =
              f.prim.fmt :: ((flds'.filter fun f => !f.isLast).map fun f => f.prim.fmt) := by
          simp [List.filter, Bool.of_not_eq_true hl]
        rw [hstep]
        cases hfmt : f.prim.fmt with
        | num s w => exact ⟨hfmt ▸ hfitv, h2⟩
        | boolean => exact ⟨hfmt ▸ hfitv, h2⟩
        | string n => exact ⟨hfmt ▸ hfitv, h2⟩
        | pad n => exact absurd (hfmt ▸ hfitv) (by simp [fitsItem])
      · simpa [List.find?, hl] using h3

/-- The declared widths split into the inline items and the trailing
item. -/
theorem layoutSize_split {fields : List Field} (h : countLast fields ≤ 1) :
    layoutSize fields =
      calcsize ((fields.filter fun f => !f.isLast).map fun f => f.prim.fmt) +
        calcsize (((fields.find? Field.isLast).map fun f => f.prim.fmt).toList) := by
  induction fields with
  | nil => rfl
  | cons f fs ih =>
    rw [countLast_cons] at h
    by_cases hl : f.isLast
    · rw [if_pos hl] at h
      have hzero : countLast fs = 0 := by omega
      have hfil : (f :: fs).filter (fun f => !f.isLast) = fs := by
        rw [List.filter_cons]
        simp only [hl, Bool.not_true, Bool.false_eq_true, if_false]
        exact filter_not_isLast_eq hzero
      have hfind : (f :: fs).find? Field.isLast = some f := by
        simp [List.find?, hl]
      rw [hfil, hfind]
      simp [layoutSize, calcsize, Field.width, List.map_map, Function.comp_def]
      omega
    · rw [if_neg hl] at h
      have hfil : (f :: fs).filter (fun f => !f.isLast) =
          f :: fs.filter (fun f => !f.isLast) := by
        rw [List.filter_cons]
        simp [Bool.of_not_eq_true hl]
      have hfind : (f :: fs).find? Field.isLast = fs.find? Field.isLast := by
        simp [List.find?, Bool.of_not_eq_true hl]
      rw [hfil, hfind]
      have hih := ih (by omega)
      simp only [layoutSize, calcsize, Field.width, List.map_cons, List.sum_cons,
        List.map_map, Function.comp_def] at hih ⊢
      omega

/-- The encoder succeeds on a valid instance, and its output length is
the layout size. -/
theorem encodeB_length {fields : List Field} {s : Schema} {store : Store}
    (hc : compile fields = Except.ok s) (hv : ValidInstance s store) :
    ∃ bs, encodeB s store = some bs ∧ bs.length = layoutSize fields := by
  have hfl := compile_fields hc
  have hcount : countLast s.fields ≤ 1 := by rw [hfl]; exact compile_countLast hc
  obtain ⟨vals, lastv, h1, h2, h3⟩ := bytesValuesAux_corr hv hcount
  have hbv : bytesValues s store = some (vals ++ lastv.toList) := by
    simp [bytesValues, h1]
  have hinline : s.inline = (s.fields.filter fun f => !f.isLast).map fun f => f.prim.fmt := by
    rw [compile_inline hc, hfl]
  have htrail : s.trailing = (s.fields.find? Field.isLast).map fun f => f.prim.fmt := by
    rw [compile_trailing hc, hfl]
  have hsplit := layoutSize_split hcount
  cases hfind : s.fields.find? Field.isLast with
  | none =>
    simp only [hfind] at h3
    subst h3
    obtain ⟨bs, hbs⟩ := structPack_of_fits h2
    refine ⟨bs, ?_, ?_⟩
    · simp [encodeB, hbv, Schema.fmtItems, hinline, htrail, hfind, hbs]
    · rw [structPack_length hbs, ← hfl, hsplit]
      simp [hfind, calcsize]
  | some lf =>
    simp only [hfind] at h3
    obtain ⟨v, rfl, hfitv⟩ := h3
    obtain ⟨bs, hbs⟩ := structPack_of_fits h2
    obtain ⟨c1, hc1, hc1len⟩ := packValue1_of_fitsItem hfitv
    have hsingle : structPack [lf.prim.fmt] [v] = some c1 := by
      cases hfm : lf.prim.fmt <;> rw [hfm] at hc1 <;>
        simp [structPack, hc1] <;>
        exact absurd hc1 (by simp [packValue1])
    have hall := structPack_append hbs hsingle
    refine ⟨bs ++ c1, ?_, ?_⟩
    · simp only [encodeB, hbv, Option.bind_eq_bind, Option.some_bind,
        Schema.fmtItems, hinline, htrail, hfind, Option.map_some', Option.toList_some]
      simpa using hall
    · rw [← hfl, hsplit]
      simp [hfind, structPack_length hbs, hc1len, calcsize]

/-! ## Round-trip machinery (schemas without Calculated/AutoLength/Constant) -/

/-- Without calculated fields there is no `last=True` field. -/
theorem countLast_eq_zero_of_plainOrEnum {fields : List Field}
    (h : ∀ f ∈ fields, plainOrEnum f) : countLast fields = 0 := by
  induction fields with
  | nil => rfl
  | cons f fs ih =>
    rw [countLast_cons]
    have hf := h f (by simp)
    have hlast : f.isLast = false := by
      cases hk : f.kind <;> simp_all [plainOrEnum, Field.isLast]
    rw [hlast]
    simpa using ih fun g hg => h g (by simp [hg])

/-- On a calculated-field-free valid suffix, the `__bytes__` loop returns
exactly the stored values, in order, with nothing held back. -/
theorem bytesValuesAux_novals {all : List Field} {view : List (String × Value)} :
    ∀ {flds : List Field} {store : Store},
      Corr all view flds store → (∀ f ∈ flds, plainOrEnum f) →
      bytesValuesAux all view store =
        some (store.map (fun p => entryValue view p.2), none) := by
  intro flds store hcorr
  induction hcorr with
  | nil => intro _; rfl
  | @pad f flds' store' hpad hlast _ ih =>
    intro hns
    exact ih fun g hg => hns g (by simp [hg])
  | @entry f flds' e store' hpad hfind hval _ ih =>
    intro hns
    have hf := hns f (by simp)
    have hlast : f.isLast = false := by
      cases hk : f.kind <;> simp_all [plainOrEnum, Field.isLast]
    simp only [bytesValuesAux, hfind, Option.bind_eq_bind, Option.some_bind]
    rw [ih fun g hg => hns g (by simp [hg])]
    simp [hlast, entryValue]

/-- Assigning through a plain or enum descriptor leaves unrelated leading
dict entries untouched. -/
theorem setattrF_cons {f : Field} (hpad : f.isPadding = false) (hpe : plainOrEnum f)
    {p : String × Entry} (hne : p.1 ≠ f.name) (store : Store) (v : Value) :
    setattrF f (p :: store) v =
      (p :: (setattrF f store v).1, (setattrF f store v).2) := by
  cases hk : f.kind with
  | plain =>
    simp only [setattrF, hpad, Bool.false_eq_true, if_false, hk]
    by_cases hcheck : checkSet f.prim v
    · simp [hcheck, storeSet, hne]
    · simp [hcheck]
  | enum m d =>
    simp only [setattrF, hpad, Bool.false_eq_true, if_false, hk]
    cases v with
    | pystr t =>
      by_cases hmem : enumHasLabel m t
      · simp [hmem, storeSet, hne]
      · simp [hmem]
    | int i =>
      by_cases hmem : enumHasRaw m i
      · simp [hmem, storeSet, hne]
      · simp [hmem]
    | bool b =>
      by_cases hmem : enumHasRaw m (if b then 1 else 0)
      · simp [hmem, storeSet, hne]
      · simp [hmem]
    | str t => simp
  | const d => exact absurd hpe (by simp [plainOrEnum, hk])
  | auto off => exact absurd hpe (by simp [plainOrEnum, hk])
  | calcF g l => exact absurd hpe (by simp [plainOrEnum, hk])

/-- The decode loop over fields that neither read nor write a leading
dict entry carries that entry through unchanged. -/
theorem frombytesLoop_cons_irrelevant {p : String × Entry} :
    ∀ {fs : List Field},
      (∀ f ∈ fs, f.isPadding = false ∧ plainOrEnum f ∧ p.1 ≠ f.name) →
      ∀ (args : List Value) (store : Store),
        frombytesLoop fs args (p :: store) =
          (p :: (frombytesLoop fs args store).1, (frombytesLoop fs args store).2) := by
  intro fs
  induction fs with
  | nil => intro _ args store; rfl
  | cons f fs ih =>
    intro h args store
    obtain ⟨hpad, hpe, hne⟩ := h f (by simp)
    cases args with
    | nil => rfl
    | cons arg args =>
      have hrw := setattrF_cons hpad hpe hne store arg
      cases hk : f.kind with
      | plain =>
        simp only [frombytesLoop, hk]
        rw [hrw]
        rcases hset : setattrF f store arg with ⟨store', err⟩
        cases err with
        | none =>
          simp only [hset]
          exact ih (fun g hg => h g (by simp [hg])) args store'
        | some e => simp only [hset]
      | enum m d =>
        simp only [frombytesLoop, hk]
        rw [hrw]
        rcases hset : setattrF f store arg with ⟨store', err⟩
        cases err with
        | none =>
          simp only [hset]
          exact ih (fun g hg => h g (by simp [hg])) args store'
        | some e => simp only [hset]
      | const d => exact absurd hpe (by simp [plainOrEnum, hk])
      | auto off => exact absurd hpe (by simp [plainOrEnum, hk])
      | calcF g l => exact absurd hpe (by simp [plainOrEnum, hk])

/-- Replaying a valid calculated-field-free instance's own values through
the decode loop, into any same-shaped store, reproduces the instance
exactly and raises nothing. -/
theorem frombytesLoop_rebuild {all : List Field} {view : List (String × Value)} :
    ∀ {flds : List Field} {store : Store},
      Corr all view flds store →
      (∀ f ∈ flds, plainOrEnum f) →
      ((flds.filter fun f => !f.isPadding).map Field.name).Nodup →
      ∀ {store₀ : Store},
        List.Forall₂ (fun (f : Field) (p : String × Entry) => p.1 = f.name)
          (flds.filter fun f => !f.isPadding) store₀ →
        frombytesLoop (flds.filter fun f => !f.isPadding)
          (store.map fun p => entryValue view p.2) store₀ = (store, none) := by
  intro flds store hcorr
  induction hcorr with
  | nil =>
    intro _ _ store₀ hshape
    cases hshape
    rfl
  | @pad f flds' store' hpad hlast _ ih =>
    intro hns hnd store₀ hshape
    have hfil : (f :: flds').filter (fun f => !f.isPadding) =
        flds'.filter fun f => !f.isPadding := by
      rw [List.filter_cons]
      simp [hpad]
    rw [hfil] at hshape ⊢
    rw [hfil] at hnd
    exact ih (fun g hg => hns g (by simp [hg])) hnd hshape
  | @entry f flds' e store' hpad hfind hval _ ih =>
    intro hns hnd store₀ hshape
    have hfil : (f :: flds').filter (fun f => !f.isPadding) =
        f :: flds'.filter fun f => !f.isPadding := by
      rw [List.filter_cons]
      simp [hpad]
    rw [hfil] at hshape hnd ⊢
    cases hshape with
    | @cons _ q _ store₀prev hq hrest =>
      simp only [List.map_cons, List.nodup_cons] at hnd
      obtain ⟨hnotin, hndtail⟩ := hnd
      have hns' : ∀ g ∈ flds', plainOrEnum g := fun g hg => hns g (by simp [hg])
      have hirr : ∀ g ∈ flds'.filter fun f => !f.isPadding,
          g.isPadding = false ∧ plainOrEnum g ∧ f.name ≠ g.name := by
        intro g hg
        refine ⟨by simpa using List.of_mem_filter hg,
          hns' g (List.mem_of_mem_filter hg), ?_⟩
        intro hEq
        exact hnotin (List.mem_map.mpr ⟨g, hg, hEq.symm⟩)
      cases hk : f.kind with
      | plain =>
        obtain ⟨v0, hev, hfit⟩ : ∃ v, e = Entry.val v ∧ fitsExact f.prim v := by
          simpa [ValidEntry, hk] using hval
        subst hev
        have hmap : ((f.name, Entry.val v0) :: store').map (fun p => entryValue view p.2) =
            v0 :: store'.map fun p => entryValue view p.2 := by
          rw [List.map_cons]
          rfl
        rw [hmap]
        simp only [frombytesLoop, hk]
        have hset : setattrF f (q :: store₀prev) v0 =
            ((f.name, Entry.val v0) :: store₀prev, none) := by
          simp only [setattrF, hpad, Bool.false_eq_true, if_false, hk,
            checkSet_of_fitsExact hfit, if_true]
          cases q with
          | mk qn qe =>
            obtain rfl : qn = f.name := hq
            simp [storeSet]
        rw [hset]
        simp only
        rw [frombytesLoop_cons_irrelevant hirr _ store₀prev]
        rw [ih hns' hndtail hrest]
      | enum m d =>
        obtain ⟨i, hev, hmem, hfit⟩ :
            ∃ i, e = Entry.val (Value.int i) ∧ enumHasRaw m i = true ∧
              fitsExact f.prim (Value.int i) := by
          simpa [ValidEntry, hk] using hval
        subst hev
        have hmap : ((f.name, Entry.val (Value.int i)) :: store').map
              (fun p => entryValue view p.2) =
            Value.int i :: store'.map fun p => entryValue view p.2 := by
          rw [List.map_cons]
          rfl
        rw [hmap]
        simp only [frombytesLoop, hk]
        have hset : setattrF f (q :: store₀prev) (Value.int i) =
            ((f.name, Entry.val (Value.int i)) :: store₀prev, none) := by
          simp only [setattrF, hpad, Bool.false_eq_true, if_false, hk, hmem, if_true]
          cases q with
          | mk qn qe =>
            obtain rfl : qn = f.name := hq
            simp [storeSet]
        rw [hset]
        simp only
        rw [frombytesLoop_cons_irrelevant hirr _ store₀prev]
        rw [ih hns' hndtail hrest]
      | const d => exact absurd (hns f (by simp)) (by simp [plainOrEnum, hk])
      | auto off => exact absurd (hns f (by simp)) (by simp [plainOrEnum, hk])
      | calcF g l => exact absurd (hns f (by simp)) (by simp [plainOrEnum, hk])

/-- Round trip for schemas without Calculated/AutoLength/Constant fields:
the encoder succeeds on a valid instance and decoding its output into any
same-shaped instance reproduces the encoded values exactly, raising
nothing.  Field names are unique, as `dataclasses.fields` guarantees. -/
theorem roundTrip {fields : List Field} {s : Schema} {store store₀ : Store}
    (hc : compile fields = Except.ok s)
    (hns : ∀ f ∈ fields, plainOrEnum f)
    (hnd : ((fields.filter fun f => !f.isPadding).map Field.name).Nodup)
    (hv : ValidInstance s store)
    (hshape : List.Forall₂ (fun (f : Field) (p : String × Entry) => p.1 = f.name)
      (fields.filter fun f => !f.isPadding) store₀) :
    ∃ bs, encodeB s store = some bs ∧ frombytes s store₀ bs = (store, none) := by
  have hfl := compile_fields hc
  subst hfl
  have hzero : countLast s.fields = 0 := countLast_eq_zero_of_plainOrEnum hns
  have hfind : s.fields.find? Field.isLast = none := find_isLast_eq_none hzero
  have hfilter : s.fields.filter (fun f => !f.isLast) = s.fields :=
    filter_not_isLast_eq hzero
  have hinline : s.inline = s.fields.map fun f => f.prim.fmt := by
    rw [compile_inline hc, hfilter]
  have htrail : s.trailing = none := by
    rw [compile_trailing hc, hfind]
    rfl
  have hfmt : s.fmtItems = s.fields.map fun f => f.prim.fmt := by
    simp [Schema.fmtItems, hinline, htrail]
  have hnv := bytesValuesAux_novals hv hns
  obtain ⟨vals', lastv', h1', h2', h3'⟩ := bytesValuesAux_corr hv (by omega)
  rw [hnv] at h1'
  obtain ⟨hveq, hleq⟩ : vals' = store.map (fun p => entryValue (valueView store) p.2) ∧
      lastv' = none := by
    have hp := Option.some.inj h1'.symm
    exact ⟨congrArg Prod.fst hp, congrArg Prod.snd hp⟩
  subst hveq
  rw [hfilter] at h2'
  have hbv : bytesValues s store =
      some (store.map fun p => entryValue (valueView store) p.2) := by
    simp [bytesValues, hnv]
  obtain ⟨bs, hbs⟩ := structPack_of_fits h2'
  refine ⟨bs, ?_, ?_⟩
  · simp [encodeB, hbv, hfmt, hbs]
  · have hun : structUnpack s.fmtItems bs =
        some (store.map fun p => entryValue (valueView store) p.2) := by
      rw [hfmt]
      exact structUnpack_of_pack h2' hbs
    simp only [frombytes, hun]
    exact frombytesLoop_rebuild hv hns hnd hshape

/-! ## Construction lemmas -/

/-- Unique field names make `name` injective on the declaration list
(`dataclasses.fields` yields one entry per name). -/
theorem name_inj_of_nodup :
    ∀ {flds : List Field}, (flds.map Field.name).Nodup →
      ∀ {f g : Field}, f ∈ flds → g ∈ flds → f.name = g.name → f = g := by
  intro flds
  induction flds with
  | nil => intro _ f g hf; exact absurd hf (by simp)
  | cons h t ih =>
    intro hnd f g hf hg hname
    simp only [List.map_cons, List.nodup_cons] at hnd
    obtain ⟨hnotin, hndt⟩ := hnd
    rcases List.mem_cons.mp hf with rfl | hf'
    · rcases List.mem_cons.mp hg with rfl | hg'
      · rfl
      · exact absurd (List.mem_map.mpr ⟨g, hg', hname.symm⟩) hnotin
    · rcases List.mem_cons.mp hg with rfl | hg'
      · exact absurd (List.mem_map.mpr ⟨f, hf', hname⟩) hnotin
      · exact ih hndt hf' hg' hname

/-- Passing a keyword for a non-`init` field name fails the signature
binding, before any store is built. -/
theorem mkInstance_rejects_non_init {s : Schema} {kwargs : List (String × Value)}
    {bin : List Nat} {f : Field} {v : Value}
    (hnd : (s.fields.map Field.name).Nodup)
    (hf : f ∈ s.fields) (hni : f.isInit = false) (hkw : (f.name, v) ∈ kwargs) :
    mkInstance s kwargs bin =
      Except.error "__init__() got an unexpected keyword argument" := by
  have hall : kwargs.all
      (fun p => (s.fields.filter Field.isInit).any fun g => g.name = p.1) = false := by
    rw [List.all_eq_false]
    refine ⟨(f.name, v), hkw, ?_⟩
    simp only [List.any_eq_true, not_exists, not_and]
    intro g hg
    have hgmem := List.mem_of_mem_filter hg
    have hginit := List.of_mem_filter hg
    intro hEq
    have : g = f := name_inj_of_nodup hnd hgmem hf (by simpa using hEq)
    subst this
    rw [hni] at hginit
    exact absurd hginit (by simp)
  rw [mkInstance, if_neg (by simp only [hall]; simp)]

/-- The store `__post_init__` leaves behind holds a constant field's
declared default. -/
theorem postInitGo_const {s : Schema} {store : Store} :
    ∀ {flds : List Field} {f : Field} {d : Value},
      (flds.map Field.name).Nodup → f ∈ flds → f.isPadding = false →
      f.kind = FieldKind.const d →
      storeGet (postInit.go s store flds) f.name = some (Entry.val d) := by
  intro flds
  induction flds with
  | nil => intro f d _ hf; exact absurd hf (by simp)
  | cons g t ih =>
    intro f d hnd hf hpad hk
    simp only [List.map_cons, List.nodup_cons] at hnd
    obtain ⟨hnotin, hndt⟩ := hnd
    rcases List.mem_cons.mp hf with rfl | hf'
    · simp only [postInit.go, hpad, Bool.false_eq_true, if_false, hk]
      simp [storeGet]
    · have hne : g.name ≠ f.name := by
        intro hEq
        exact hnotin (List.mem_map.mpr ⟨f, hf', hEq.symm⟩)
      have htail := ih hndt hf' hpad hk
      by_cases hgp : g.isPadding
      · simp only [postInit.go, hgp, if_true]
        exact htail
      · simp only [postInit.go, hgp, Bool.false_eq_true, if_false]
        cases hgk : g.kind <;>
          first
            | (simp only [storeGet, if_neg hne]; exact htail)
            | (rcases hget : storeGet store g.name with _ | e
               · exact htail
               · simp only [storeGet, if_neg hne]; exact htail)

/-- The store `__post_init__` leaves behind holds an auto-length field's
computed value: `struct.calcsize(formatstring) + offset`. -/
theorem postInitGo_auto {s : Schema} {store : Store} :
    ∀ {flds : List Field} {f : Field} {off : Int},
      (flds.map Field.name).Nodup → f ∈ flds → f.isPadding = false →
      f.kind = FieldKind.auto off →
      storeGet (postInit.go s store flds) f.name =
        some (Entry.val (Value.int ((calcsize s.fmtItems : Int) + off))) := by
  intro flds
  induction flds with
  | nil => intro f off _ hf; exact absurd hf (by simp)
  | cons g t ih =>
    intro f off hnd hf hpad hk
    simp only [List.map_cons, List.nodup_cons] at hnd
    obtain ⟨hnotin, hndt⟩ := hnd
    rcases List.mem_cons.mp hf with rfl | hf'
    · simp only [postInit.go, hpad, Bool.false_eq_true, if_false, hk]
      simp [storeGet]
    · have hne : g.name ≠ f.name := by
        intro hEq
        exact hnotin (List.mem_map.mpr ⟨f, hf', hEq.symm⟩)
      have htail := ih hndt hf' hpad hk
      by_cases hgp : g.isPadding
      · simp only [postInit.go, hgp, if_true]
        exact htail
      · simp only [postInit.go, hgp, Bool.false_eq_true, if_false]
        cases hgk : g.kind <;>
          first
            | (simp only [storeGet, if_neg hne]; exact htail)
            | (rcases hget : storeGet store g.name with _ | e
               · exact htail
               · simp only [storeGet, if_neg hne]; exact htail)

/-- Construction without a binary payload yields exactly the
`__post_init__` store. -/
theorem mkInstance_ok_shape {s : Schema} {kwargs : List (String × Value)} {st : Store}
    (h : mkInstance s kwargs [] = Except.ok st) :
    ∃ st1, initLoop kwargs s.fields [] = Except.ok st1 ∧ st = postInit s st1 := by
  by_cases hall : kwargs.all
      (fun p => (s.fields.filter Field.isInit).any fun g => g.name = p.1)
  · simp only [mkInstance, hall, if_true] at h
    rcases hinit : initLoop kwargs s.fields [] with e | st1 <;> rw [hinit] at h
    · exact absurd h (by simp)
    · refine ⟨st1, rfl, ?_⟩
      simpa using (Except.ok.inj h).symm
  · rw [mkInstance, if_neg hall] at h
    exact absurd h (by simp)

/-- `ConstField.__set__` (used for both constant and auto-length fields)
raises once the name exists, leaving the store untouched. -/
theorem setattrF_const_present {f : Field} {store : Store} {v : Value}
    (hpad : f.isPadding = false)
    (hk : (∃ d, f.kind = FieldKind.const d) ∨ ∃ off, f.kind = FieldKind.auto off)
    (hmem : (storeGet store f.name).isSome = true) :
    setattrF f store v = (store, some (f.name ++ " is a constant")) := by
  rcases hk with ⟨d, hk⟩ | ⟨off, hk⟩ <;>
    simp [setattrF, hpad, hk, hmem]

/-- `BinField.__set__` on an out-of-range value raises `struct.error`
synchronously and leaves the store exactly as it was. -/
theorem setattrF_plain_out_of_range {f : Field} {store : Store} {v : Value}
    (hpad : f.isPadding = false) (hk : f.kind = FieldKind.plain)
    (hcheck : checkSet f.prim v = false) :
    setattrF f store v = (store, some "struct.error: argument out of range") := by
  simp [setattrF, hpad, hk, hcheck]

/-- `EnumField.__set__` stores an accepted value exactly as supplied, and
a subsequent read returns it untranslated. -/
theorem setattrF_enum_as_given {f : Field} {store : Store} {m : List (Int × String)}
    {d : Value} (hpad : f.isPadding = false) (hk : f.kind = FieldKind.enum m d) :
    (∀ i, enumHasRaw m i = true →
      setattrF f store (Value.int i) = (storeSet store f.name (Entry.val (Value.int i)), none)) ∧
    (∀ t, enumHasLabel m t = true →
      setattrF f store (Value.pystr t) =
        (storeSet store f.name (Entry.val (Value.pystr t)), none)) := by
  constructor
  · intro i hmem
    simp [setattrF, hpad, hk, hmem]
  · intro t hmem
    simp [setattrF, hpad, hk, hmem]

/-- Reading any non-calculated, non-padding field returns the stored
value unchanged. -/
theorem getattrF_stored {f : Field} {store : Store} {v : Value}
    (hpad : f.isPadding = false)
    (hnc : ∀ g l, f.kind ≠ FieldKind.calcF g l)
    (hget : storeGet store f.name = some (Entry.val v)) :
    getattrF f store = Except.ok v := by
  cases hk : f.kind with
  | calcF g l => exact absurd hk (hnc g l)
  | plain => simp [getattrF, hpad, hk, hget]
  | const d => simp [getattrF, hpad, hk, hget]
  | enum m d => simp [getattrF, hpad, hk, hget]
  | auto off => simp [getattrF, hpad, hk, hget]

/-- A fully consumed, error-free prefix of the decode loop carries its
final store into the continuation. -/
theorem frombytesLoop_append :
    ∀ {pre : List Field} {a1 : List Value} {store store₁ : Store},
      pre.length = a1.length →
      frombytesLoop pre a1 store = (store₁, none) →
      ∀ (fs : List Field) (args : List Value),
        frombytesLoop (pre ++ fs) (a1 ++ args) store = frombytesLoop fs args store₁ := by
  intro pre
  induction pre with
  | nil =>
    intro a1 store store₁ hlen h fs args
    cases a1 with
    | nil =>
      obtain rfl : store = store₁ := by simpa [frombytesLoop] using h
      rfl
    | cons a a1 => simp at hlen
  | cons f pre ih =>
    intro a1 store store₁ hlen h fs args
    cases a1 with
    | nil => simp at hlen
    | cons a a1 =>
      simp only [List.length_cons, Nat.succ.injEq] at hlen
      simp only [List.cons_append]
      cases hk : f.kind with
      | const d =>
        simp only [frombytesLoop, hk] at h ⊢
        by_cases hEq : a = d
        · rw [if_pos hEq] at h ⊢
          exact ih hlen h fs args
        · rw [if_neg hEq] at h
          exact absurd (congrArg Prod.snd h) (by simp)
      | auto off =>
        simp only [frombytesLoop, hk] at h ⊢
        rcases hget : storeGet store f.name with _ | e
        · rw [hget] at h
          have hcontra : ((store, some "AttributeError") : Store × Option String) =
              (store₁, none) := h
          exact absurd (congrArg Prod.snd hcontra) (by simp)
        · rw [hget] at h
          cases e with
          | fn g =>
            have hcontra : ((store, some "AttributeError") : Store × Option String) =
                (store₁, none) := h
            exact absurd (congrArg Prod.snd hcontra) (by simp)
          | val v =>
            have hred : (if a = v then frombytesLoop pre a1 store
                else (store, some "Length doesn't match")) = (store₁, none) := h
            show (if a = v then frombytesLoop (pre ++ fs) (a1 ++ args) store
              else (store, some "Length doesn't match")) = frombytesLoop fs args store₁
            by_cases hEq : a = v
            · rw [if_pos hEq] at hred ⊢
              exact ih hlen hred fs args
            · rw [if_neg hEq] at hred
              exact absurd (congrArg Prod.snd hred) (by simp)
      | calcF g l =>
        simp only [frombytesLoop, hk] at h ⊢
        by_cases hEq : a = g (valueView store)
        · rw [if_pos hEq] at h ⊢
          exact ih hlen h fs args
        · rw [if_neg hEq] at h
          exact absurd (congrArg Prod.snd h) (by simp)
      | plain =>
        simp only [frombytesLoop, hk] at h ⊢
        rcases hset : setattrF f store a with ⟨store', err⟩
        rw [hset] at h
        cases err with
        | none =>
          have hred : frombytesLoop pre a1 store' = (store₁, none) := h
          show frombytesLoop (pre ++ fs) (a1 ++ args) store' = frombytesLoop fs args store₁
          exact ih hlen hred fs args
        | some e =>
          have hcontra : ((store', some e) : Store × Option String) = (store₁, none) := h
          exact absurd (congrArg Prod.snd hcontra) (by simp)
      | enum m d =>
        simp only [frombytesLoop, hk] at h ⊢
        rcases hset : setattrF f store a with ⟨store', err⟩
        rw [hset] at h
        cases err with
        | none =>
          have hred : frombytesLoop pre a1 store' = (store₁, none) := h
          show frombytesLoop (pre ++ fs) (a1 ++ args) store' = frombytesLoop fs args store₁
          exact ih hlen hred fs args
        | some e =>
          have hcontra : ((store', some e) : Store × Option String) = (store₁, none) := h
          exact absurd (congrArg Prod.snd hcontra) (by simp)

theorem calcsize_append (xs ys : List FmtItem) :
    calcsize (xs ++ ys) = calcsize xs + calcsize ys := by
  simp [calcsize]

/-- The compiled format string measures exactly the layout size. -/
theorem calcsize_fmtItems {fields : List Field} {s : Schema}
    (hc : compile fields = Except.ok s) :
    calcsize s.fmtItems = layoutSize fields := by
  rw [Schema.fmtItems, calcsize_append, compile_inline hc, compile_trailing hc,
    layoutSize_split (compile_countLast hc)]

/-! ## The claims -/

/-- C1: for every schema containing no Calculated, AutoLength, or Constant
fields, and every valid assignment of values to its non-padding fields,
decoding the bytes produced by encoding it yields a value store equal to
the encoded one (`decode(encode(v)) == v`): encoding succeeds, and
decoding its output into any instance of the schema's shape reproduces
the encoded store exactly, raising nothing.  Field names are unique, as
`dataclasses.fields` guarantees for a compiled class. -/
theorem C1_round_trip {fields : List Field} {s : Schema} {store store₀ : Store}
    (hc : compile fields = Except.ok s)
    (hns : ∀ f ∈ fields, plainOrEnum f)
    (hnd : ((fields.filter fun f => !f.isPadding).map Field.name).Nodup)
    (hv : ValidInstance s store)
    (hshape : List.Forall₂ (fun (f : Field) (p : String × Entry) => p.1 = f.name)
      (fields.filter fun f => !f.isPadding) store₀) :
    ∃ bs, encodeB s store = some bs ∧ frombytes s store₀ bs = (store, none) :=
  roundTrip hc hns hnd hv hshape

/-- Witness for C1 at the `TempHum` schema with `temp=10, humidity=60`,
decoding into a freshly default-constructed instance. -/
theorem C1_round_trip_witness :
    ∃ bs,
      encodeB tempHumS
        [("temp", Entry.val (Value.int 10)), ("humidity", Entry.val (Value.int 60))] =
          some bs ∧
      frombytes tempHumS
        [("temp", Entry.val (Value.int 0)), ("humidity", Entry.val (Value.int 0))] bs =
        ([("temp", Entry.val (Value.int 10)), ("humidity", Entry.val (Value.int 60))],
          none) :=
  C1_round_trip (rfl : compile tempHumFields = Except.ok tempHumS)
    (by
      intro f hf
      simp only [tempHumFields, List.mem_cons, List.not_mem_nil, or_false] at hf
      rcases hf with rfl | rfl <;> trivial)
    (by decide)
    (Corr.entry rfl rfl ⟨Value.int 10, rfl, by decide, by decide⟩
      (Corr.entry rfl rfl ⟨Value.int 60, rfl, by decide, by decide⟩ Corr.nil))
    (List.Forall₂.cons rfl (List.Forall₂.cons rfl List.Forall₂.nil))

/-- C2: the spec states that decode matches each unpacked value to the
field at the same *physical layout* position (inline fields in layout
order, trailing field last).  The code instead zips the physically
ordered unpacked values against `__datafields`, which lists fields in
*declaration* order, so a trailing field declared before other fields is
compared against the wrong unpacked value.  Evaluated at the failing
input: `CalculatedFieldLast` (declaring `temp`, then the trailing
`checksum`, then `hum`) encodes `temp=10, hum=20` to `0x0A 0x14 0x1E`,
and decoding those very bytes — which per the spec must succeed — raises
`Wrong calculated value`, because the unpacked `hum` byte `0x14` is
matched against the `checksum` field. -/
theorem C2_decl_order_mismatch :
    encodeB calcLastS
      [("temp", Entry.val (Value.int 10)), ("checksum", Entry.fn chkLast),
        ("hum", Entry.val (Value.int 20))] = some [10, 20, 30] ∧
    mkInstance calcLastS [] [10, 20, 30] =
      Except.error "Wrong calculated value" :=
  ⟨by decide, by rfl⟩

/-- C3 counterexample: decoding `0x05 0x14` into a constructed instance
of the schema `{status: uint8, datatype: uint8 = constant(0x15)}` raises
the constant-mismatch error, yet leaves `status` already updated to `5`:
the resulting store differs from the original, refuting "no field of the
target value store has been modified". -/
theorem C3_counterexample :
    frombytes statusFirstS
        [("status", Entry.val (Value.int 0)), ("datatype", Entry.val (Value.int 0x15))]
        [5, 0x14] =
      ([("status", Entry.val (Value.int 5)), ("datatype", Entry.val (Value.int 0x15))],
        some "Constant doesn't match binary data") ∧
    ([("status", Entry.val (Value.int 5)), ("datatype", Entry.val (Value.int 0x15))] :
        Store) ≠
      [("status", Entry.val (Value.int 0)), ("datatype", Entry.val (Value.int 0x15))] :=
  ⟨by rfl, by simp⟩

/-- C3 (amended): decode is all-or-nothing only for structural failures:
when `struct.unpack` itself fails (buffer length mismatch), the exception
escapes before the assignment loop and no field of the target value store
is modified.  Semantic violations (constant/auto-length/calculated
mismatch) abort the loop but may leave fields decoded before the
violation already updated. -/
theorem C3_unpack_failure_atomic (s : Schema) (store : Store) (buf : List Nat)
    (h : structUnpack s.fmtItems buf = none) :
    frombytes s store buf = (store, some "struct.error: unpack") := by
  simp [frombytes, h]

/-- Witness for the amended C3 at `TempHum` with a 3-byte buffer. -/
theorem C3_unpack_failure_atomic_witness :
    frombytes tempHumS
        [("temp", Entry.val (Value.int 0)), ("humidity", Entry.val (Value.int 0))]
        [1, 2, 3] =
      ([("temp", Entry.val (Value.int 0)), ("humidity", Entry.val (Value.int 0))],
        some "struct.error: unpack") :=
  C3_unpack_failure_atomic tempHumS _ [1, 2, 3] (by rfl)

/-- C4: for every schema and every valid value store, encoding succeeds
and produces exactly `layoutSize` bytes — the sum of all declared field
widths, with `Padding` counting its full repeat count and string fields
their declared length. -/
theorem C4_fixed_width {fields : List Field} {s : Schema} {store : Store}
    (hc : compile fields = Except.ok s) (hv : ValidInstance s store) :
    ∃ bs, encodeB s store = some bs ∧ bs.length = layoutSize fields :=
  encodeB_length hc hv

/-- Witness for C4 at `CalculatedFieldLast` (which exercises the trailing
field) with `temp=10, hum=20`. -/
theorem C4_fixed_width_witness :
    ∃ bs,
      encodeB calcLastS
        [("temp", Entry.val (Value.int 10)), ("checksum", Entry.fn chkLast),
          ("hum", Entry.val (Value.int 20))] = some bs ∧
      bs.length = layoutSize calcLastFields :=
  C4_fixed_width (rfl : compile calcLastFields = Except.ok calcLastS)
    (Corr.entry rfl rfl ⟨Value.int 10, rfl, by decide, by decide⟩
      (Corr.entry rfl rfl ⟨rfl, by decide, by decide⟩
        (Corr.entry rfl rfl ⟨Value.int 20, rfl, by decide, by decide⟩ Corr.nil)))

/-- C5: constant fields.  (1) Passing an initial value for a constant
field at construction is rejected by the signature binding (`init=False`
gives the generated `__init__` no such parameter), before any store is
created.  (2) After a successful construction the field's value is its
declared default.  (3) Any write after construction (once the name is in
the dict) raises the constant-is-immutable error and leaves the store
unchanged.  (4) The concrete scenario: for
`{datatype: uint8 = constant(0x15), status: uint8}`, construction gives
`datatype=0x15`, encoding emits `0x15 0x01` for `status=1`, decoding
`0x14 0x01` raises the constant mismatch producing no instance, and
decoding `0x15 0x01` succeeds with `status=1`. -/
theorem C5_constant :
    (∀ (s : Schema) (kwargs : List (String × Value)) (bin : List Nat)
        (f : Field) (d v : Value),
      (s.fields.map Field.name).Nodup → f ∈ s.fields →
      f.kind = FieldKind.const d → (f.name, v) ∈ kwargs →
      mkInstance s kwargs bin =
        Except.error "__init__() got an unexpected keyword argument") ∧
    (∀ (s : Schema) (kwargs : List (String × Value)) (st : Store) (f : Field)
        (d : Value),
      mkInstance s kwargs [] = Except.ok st →
      (s.fields.map Field.name).Nodup → f ∈ s.fields → f.isPadding = false →
      f.kind = FieldKind.const d →
      storeGet st f.name = some (Entry.val d)) ∧
    (∀ (f : Field) (store : Store) (v d : Value),
      f.isPadding = false → f.kind = FieldKind.const d →
      (storeGet store f.name).isSome = true →
      setattrF f store v = (store, some (f.name ++ " is a constant"))) ∧
    mkInstance constValuesS [("status", Value.int 1)] [] =
      Except.ok [("datatype", Entry.val (Value.int 0x15)),
        ("status", Entry.val (Value.int 1))] ∧
    encodeB constValuesS
      [("datatype", Entry.val (Value.int 0x15)), ("status", Entry.val (Value.int 1))] =
      some [0x15, 0x01] ∧
    mkInstance constValuesS [] [0x14, 0x01] =
      Except.error "Constant doesn't match binary data" ∧
    mkInstance constValuesS [] [0x15, 0x01] =
      Except.ok [("datatype", Entry.val (Value.int 0x15)),
        ("status", Entry.val (Value.int 1))] := by
  refine ⟨?_, ?_, ?_, by rfl, by rfl, by rfl, by rfl⟩
  · intro s kwargs bin f d v hnd hf hk hkw
    exact mkInstance_rejects_non_init hnd hf (by simp [Field.isInit, hk]) hkw
  · intro s kwargs st f d hok hnd hf hpad hk
    obtain ⟨st1, _, rfl⟩ := mkInstance_ok_shape hok
    exact postInitGo_const hnd hf hpad hk
  · intro f store v d hpad hk hmem
    exact setattrF_const_present hpad (Or.inl ⟨d, hk⟩) hmem

/-- Witness for C5 at the `ConstValues` schema: the three general parts
instantiated concretely. -/
theorem C5_constant_witness :
    mkInstance constValuesS [("datatype", Value.int 0x14), ("status", Value.int 1)] [] =
      Except.error "__init__() got an unexpected keyword argument" ∧
    storeGet [("datatype", Entry.val (Value.int 0x15)),
        ("status", Entry.val (Value.int 1))] "datatype" =
      some (Entry.val (Value.int 0x15)) ∧
    setattrF ⟨"datatype", Prim.num false 1, FieldKind.const (Value.int 0x15),
        Value.int 0x15⟩
      [("datatype", Entry.val (Value.int 0x15)), ("status", Entry.val (Value.int 1))]
      (Value.int 0x14) =
      ([("datatype", Entry.val (Value.int 0x15)), ("status", Entry.val (Value.int 1))],
        some "datatype is a constant") :=
  ⟨C5_constant.1 constValuesS _ []
      ⟨"datatype", Prim.num false 1, FieldKind.const (Value.int 0x15), Value.int 0x15⟩
      (Value.int 0x15) (Value.int 0x14)
      (by decide) (List.mem_cons_self _ _) rfl (List.mem_cons_self _ _),
    C5_constant.2.1 constValuesS [("status", Value.int 1)] _
      ⟨"datatype", Prim.num false 1, FieldKind.const (Value.int 0x15), Value.int 0x15⟩
      (Value.int 0x15)
      (by rfl) (by decide) (List.mem_cons_self _ _) rfl rfl,
    C5_constant.2.2.1
      ⟨"datatype", Prim.num false 1, FieldKind.const (Value.int 0x15), Value.int 0x15⟩
      _ (Value.int 0x14) (Value.int 0x15) rfl rfl (by rfl)⟩

/-- C6: auto-length fields.  (1) The field's value is computed at
construction as `struct.calcsize(formatstring) + offset`, and the
compiled format string measures exactly the schema's total byte length
(`layoutSize`).  (2) The field is not writable afterwards (`ConstField`
raises once the name is in the dict).  (3) The concrete scenario:
`{length: uint8 = autolength(), temp: int8}` constructed with `temp=10`
gives `length=2` and encodes to `0x02 0x0A`, and decoding `0x01 0x0A`
raises the length mismatch. -/
theorem C6_autolength :
    (∀ (s : Schema) (kwargs : List (String × Value)) (st : Store) (f : Field)
        (off : Int),
      mkInstance s kwargs [] = Except.ok st →
      (s.fields.map Field.name).Nodup → f ∈ s.fields → f.isPadding = false →
      f.kind = FieldKind.auto off →
      storeGet st f.name =
        some (Entry.val (Value.int ((calcsize s.fmtItems : Int) + off)))) ∧
    (∀ (fields : List Field) (s : Schema), compile fields = Except.ok s →
      calcsize s.fmtItems = layoutSize fields) ∧
    (∀ (f : Field) (store : Store) (v : Value) (off : Int),
      f.isPadding = false → f.kind = FieldKind.auto off →
      (storeGet store f.name).isSome = true →
      setattrF f store v = (store, some (f.name ++ " is a constant"))) ∧
    mkInstance autoLengthS [("temp", Value.int 10)] [] =
      Except.ok [("length", Entry.val (Value.int 2)),
        ("temp", Entry.val (Value.int 10))] ∧
    encodeB autoLengthS
      [("length", Entry.val (Value.int 2)), ("temp", Entry.val (Value.int 10))] =
      some [0x02, 0x0A] ∧
    mkInstance autoLengthS [] [0x01, 0x0A] = Except.error "Length doesn't match" := by
  refine ⟨?_, ?_, ?_, by rfl, by rfl, by rfl⟩
  · intro s kwargs st f off hok hnd hf hpad hk
    obtain ⟨st1, _, rfl⟩ := mkInstance_ok_shape hok
    exact postInitGo_auto hnd hf hpad hk
  · intro fields s hc
    exact calcsize_fmtItems hc
  · intro f store v off hpad hk hmem
    exact setattrF_const_present hpad (Or.inr ⟨off, hk⟩) hmem

/-- Witness for C6 at the `AutoLength` schema. -/
theorem C6_autolength_witness :
    storeGet [("length", Entry.val (Value.int 2)), ("temp", Entry.val (Value.int 10))]
        "length" =
      some (Entry.val (Value.int ((calcsize autoLengthS.fmtItems : Int) + 0))) ∧
    calcsize autoLengthS.fmtItems = layoutSize autoLengthFields ∧
    setattrF ⟨"length", Prim.num false 1, FieldKind.auto 0, Value.int 0⟩
        [("length", Entry.val (Value.int 2)), ("temp", Entry.val (Value.int 10))]
        (Value.int 7) =
      ([("length", Entry.val (Value.int 2)), ("temp", Entry.val (Value.int 10))],
        some "length is a constant") :=
  ⟨C6_autolength.1 autoLengthS [("temp", Value.int 10)] _
      ⟨"length", Prim.num false 1, FieldKind.auto 0, Value.int 0⟩ 0 (by rfl) (by decide)
      (List.mem_cons_self _ _) rfl rfl,
    C6_autolength.2.1 autoLengthFields autoLengthS (by rfl),
    C6_autolength.2.2.1 ⟨"length", Prim.num false 1, FieldKind.auto 0, Value.int 0⟩
      _ (Value.int 7) 0 rfl rfl (by rfl)⟩

/-- C7 counterexample: at the `EnumClass` schema, a successful write of
the symbolic label `"East"` stores the *label string* itself — not the
raw integer `1` that the claim requires (`EnumField.__set__` stores the
value as given) — and a read after writing the raw integer `2` returns
the raw integer `2`, not the symbolic label `"South"` (`EnumField`
inherits `BinField.__get__`, which performs no translation). -/
theorem C7_counterexample :
    setattrF ⟨"wind", Prim.num false 1, FieldKind.enum windMapping (Value.int 1),
        Value.int 1⟩
        [("temp", Entry.val (Value.int 0)), ("wind", Entry.val (Value.int 1))]
        (Value.pystr "East") =
      ([("temp", Entry.val (Value.int 0)), ("wind", Entry.val (Value.pystr "East"))],
        none) ∧
    Entry.val (Value.pystr "East") ≠ Entry.val (Value.int 1) ∧
    getattrF ⟨"wind", Prim.num false 1, FieldKind.enum windMapping (Value.int 1),
        Value.int 1⟩
        [("temp", Entry.val (Value.int 0)), ("wind", Entry.val (Value.int 2))] =
      Except.ok (Value.int 2) ∧
    Value.int 2 ≠ Value.pystr "South" :=
  ⟨by rfl, by simp, by rfl, by simp⟩

/-- C7 (amended): an Enumerated field's write validates membership in the
enum mapping and then stores the supplied value exactly as given — the
raw integer when an integer was written, the label string when a label
was written — and every read returns the stored value untranslated. -/
theorem C7_enum_storage {f : Field} {store : Store} {m : List (Int × String)}
    {d : Value} (hpad : f.isPadding = false) (hk : f.kind = FieldKind.enum m d) :
    (∀ i, enumHasRaw m i = true →
      setattrF f store (Value.int i) =
        (storeSet store f.name (Entry.val (Value.int i)), none)) ∧
    (∀ t, enumHasLabel m t = true →
      setattrF f store (Value.pystr t) =
        (storeSet store f.name (Entry.val (Value.pystr t)), none)) ∧
    (∀ v, storeGet store f.name = some (Entry.val v) →
      getattrF f store = Except.ok v) := by
  obtain ⟨h1, h2⟩ := @setattrF_enum_as_given f store m d hpad hk
  exact ⟨h1, h2, fun v hv => getattrF_stored hpad (by simp [hk]) hv⟩

/-- Witness for the amended C7 at the `EnumClass` wind field. -/
theorem C7_enum_storage_witness :
    setattrF ⟨"wind", Prim.num false 1, FieldKind.enum windMapping (Value.int 1),
        Value.int 1⟩
        [("temp", Entry.val (Value.int 0)), ("wind", Entry.val (Value.int 1))]
        (Value.int 2) =
      (storeSet [("temp", Entry.val (Value.int 0)), ("wind", Entry.val (Value.int 1))]
        "wind" (Entry.val (Value.int 2)), none) ∧
    getattrF ⟨"wind", Prim.num false 1, FieldKind.enum windMapping (Value.int 1),
        Value.int 1⟩
        [("temp", Entry.val (Value.int 0)), ("wind", Entry.val (Value.int 1))] =
      Except.ok (Value.int 1) :=
  ⟨(@C7_enum_storage ⟨"wind", Prim.num false 1,
        FieldKind.enum windMapping (Value.int 1), Value.int 1⟩
      [("temp", Entry.val (Value.int 0)), ("wind", Entry.val (Value.int 1))]
      windMapping (Value.int 1) rfl rfl).1 2 (by decide),
    (@C7_enum_storage ⟨"wind", Prim.num false 1,
        FieldKind.enum windMapping (Value.int 1), Value.int 1⟩
      [("temp", Entry.val (Value.int 0)), ("wind", Entry.val (Value.int 1))]
      windMapping (Value.int 1) rfl rfl).2.2 (Value.int 1) (by rfl)⟩

/-- C8: `BinField.__set__` bounds-checks by packing the value with the
field's format character before storing; a plain integer field written
with a value outside the format's representable range (the `checkSet`
bounds, identical to `struct.pack`'s) raises `struct.error` synchronously
at write time, the write is rejected, and the store is returned exactly
as it was — the field retains its previous value. -/
theorem C8_range_check (f : Field) (store : Store) (sg : Bool) (w : Nat) (i : Int)
    (hk : f.kind = FieldKind.plain) (hp : f.prim = Prim.num sg w)
    (hout : checkSet f.prim (Value.int i) = false) :
    setattrF f store (Value.int i) =
      (store, some "struct.error: argument out of range") :=
  setattrF_plain_out_of_range (by simp [Field.isPadding, hp]) hk hout

/-- Witness for C8: writing 256 to a `uint8` field holding 10 fails and
leaves the value 10 in place. -/
theorem C8_range_check_witness :
    setattrF ⟨"temp", Prim.num false 1, FieldKind.plain, Value.int 0⟩
        [("temp", Entry.val (Value.int 10))] (Value.int 256) =
      ([("temp", Entry.val (Value.int 10))],
        some "struct.error: argument out of range") :=
  C8_range_check _ _ false 1 256 rfl rfl (by decide)

/-- C9: `__init_subclass__` compiles the full inherited field list
(ancestor fields first, exactly `dataclasses.fields`); if two or more
fields anywhere in the list carry `last=True`, compilation raises
`Can't have more than one last`, regardless of which ancestor declares
which; consequently every successfully compiled schema has at most one
trailing field. -/
theorem C9_single_trailing :
    (∀ fields : List Field, 2 ≤ countLast fields →
      compile fields = Except.error "Can't have more than one last") ∧
    (∀ (fields : List Field) (s : Schema),
      compile fields = Except.ok s → countLast fields ≤ 1) := by
  constructor
  · intro fields h
    simp [compile, compileAux_error_of_two h]
  · intro fields s h
    exact compile_countLast h

/-- Witness for C9: a schema declaring two trailing calculated fields
fails compilation, and the compiled `CalculatedFieldLast` schema has one
trailing field. -/
theorem C9_single_trailing_witness :
    compile [⟨"temp", Prim.num false 1, FieldKind.plain, Value.int 0⟩,
        ⟨"checksum1", Prim.num false 1, FieldKind.calcF chkLast true, Value.int 0⟩,
        ⟨"checksum2", Prim.num false 1, FieldKind.calcF chkLast true, Value.int 0⟩] =
      Except.error "Can't have more than one last" ∧
    countLast calcLastFields ≤ 1 :=
  ⟨C9_single_trailing.1 _ (by decide),
    C9_single_trailing.2 calcLastFields calcLastS (by rfl)⟩

/-- C10: decode routes each Enumerated value through the same
mapping-membership validation as an ordinary write (`setattr` →
`EnumField.__set__`): whenever the positionally unpacked raw value for an
Enumerated field is absent from the field's enum mapping, and the fields
decoded before it were accepted, `frombytes` raises the
unknown-enum-value error (the very error `EnumField.__set__` raises) and
produces no instance, rather than storing the unmapped raw integer. -/
theorem C10_enum_decode_validation {s : Schema} {preF postF : List Field} {f : Field}
    {m : List (Int × String)} {d : Value} {store store₁ : Store} {buf : List Nat}
    {a1 : List Value} {r : Int} {rest : List Value}
    (hdf : datafields s = preF ++ f :: postF)
    (hk : f.kind = FieldKind.enum m d)
    (hun : structUnpack s.fmtItems buf = some (a1 ++ Value.int r :: rest))
    (hlen : a1.length = preF.length)
    (hraw : enumHasRaw m r = false)
    (hpre : frombytesLoop preF a1 store = (store₁, none)) :
    frombytes s store buf = (store₁, some "is not a valid enum") := by
  have hpad : f.isPadding = false := by
    have hmem : f ∈ datafields s := by
      rw [hdf]
      exact List.mem_append_right _ (List.mem_cons_self _ _)
    simpa using List.of_mem_filter hmem
  rw [frombytes, hun]
  show frombytesLoop (datafields s) (a1 ++ Value.int r :: rest) store =
    (store₁, some "is not a valid enum")
  rw [hdf, frombytesLoop_append hlen.symm hpre (f :: postF) (Value.int r :: rest)]
  simp [frombytesLoop, hk, setattrF, hpad, hraw]

/-- Witness for C10: decoding `0x0A 0x05` with the `EnumClass` schema
(raw value 5 is not a `WindEnum` member) raises the unknown-enum error
with `temp` already accepted. -/
theorem C10_enum_decode_validation_witness :
    frombytes enumClassS
        [("temp", Entry.val (Value.int 0)), ("wind", Entry.val (Value.int 1))]
        [0x0A, 0x05] =
      ([("temp", Entry.val (Value.int 10)), ("wind", Entry.val (Value.int 1))],
        some "is not a valid enum") :=
  @C10_enum_decode_validation enumClassS
    [⟨"temp", Prim.num false 1, FieldKind.plain, Value.int 0⟩] []
    ⟨"wind", Prim.num false 1, FieldKind.enum windMapping (Value.int 1), Value.int 1⟩
    windMapping (Value.int 1)
    [("temp", Entry.val (Value.int 0)), ("wind", Entry.val (Value.int 1))]
    [("temp", Entry.val (Value.int 10)), ("wind", Entry.val (Value.int 1))]
    [0x0A, 0x05] [Value.int 10] 5 []
    rfl rfl rfl rfl (by decide) rfl

end Binmap
